import Mathlib

/-!
Shallow embedding of `src/graph.h` (template class `Graph<NodeType>`), a
directed-graph library with adjacency lists, structural transforms and
Kosaraju strongly-connected-components, instantiated at `NodeType := Nat`
(natural order; the default-constructed sentinel `NodeType()` is `0`).

Modelling conventions, mirroring the C++ source:
* `std::set<NodeType>` is a strictly ascending `List Nat` (iteration order of
  the C++ set is ascending).
* `std::map<NodeType, std::vector<NodeType>>` is an association list
  `List (Nat × List Nat)` kept in key order; `std::map::at` is `mapFind`
  (returning `Option`), map iteration is list iteration.
* Methods that throw `std::logic_error` / `std::out_of_range` return
  `Except String _` (or `Option` for `exists_edge`); a throw happens before
  any mutation in the source, so an error result carries no changed graph.
* Internal `at` calls whose key presence is guaranteed by the graph
  invariants (proved below) are modelled by total updates (`mapSet`,
  `mapPush`) that leave the map unchanged on a missing key.
-/

namespace Domino

/-- Association-list representation of `std::map<NodeType, std::vector<NodeType>>`. -/
abbrev AdjMap := List (Nat × List Nat)

/-- `std::map::at` / lookup of the first entry with the given key. -/
def mapFind : AdjMap → Nat → Option (List Nat)
  | [], _ => none
  | (k, v) :: rest, n => if k = n then some v else mapFind rest n

/-- The key sequence of the map, in storage (ascending) order. -/
def mapKeys (m : AdjMap) : List Nat := m.map Prod.fst

/-- `std::map::operator[] = v`: insert at the ordered position, overwriting
an existing entry with the same key. -/
def mapInsert : AdjMap → Nat → List Nat → AdjMap
  | [], k, v => [(k, v)]
  | (k', v') :: rest, k, v =>
    if k < k' then (k, v) :: (k', v') :: rest
    else if k = k' then (k, v) :: rest
    else (k', v') :: mapInsert rest k v

/-- Overwrite the value stored at an existing key (`at` followed by
assignment); leaves the map unchanged when the key is absent. -/
def mapSet : AdjMap → Nat → List Nat → AdjMap
  | [], _, _ => []
  | (k', v') :: rest, k, v =>
    if k = k' then (k, v) :: rest else (k', v') :: mapSet rest k v

/-- `at(k).emplace_back(x)`: append `x` to the vector stored at an existing
key; leaves the map unchanged when the key is absent. -/
def mapPush : AdjMap → Nat → Nat → AdjMap
  | [], _, _ => []
  | (k', v) :: rest, k, x =>
    if k = k' then (k', v ++ [x]) :: rest else (k', v) :: mapPush rest k x

/-- `std::set::insert` on the ascending element list. -/
def setInsert : List Nat → Nat → List Nat
  | [], n => [n]
  | x :: xs, n =>
    if n < x then n :: x :: xs
    else if n = x then x :: xs
    else x :: setInsert xs n

/-- The graph store of `Graph<NodeType>`: node set plus successor and
predecessor adjacency maps.  The `node_printer_` member is used only by the
dot serializer and by no operation studied here, so it is omitted. -/
structure Graph where
  node_set : List Nat
  succ_map : AdjMap
  pred_map : AdjMap
deriving DecidableEq, Repr

/-- A freshly constructed graph: all three containers empty. -/
def emptyGraph : Graph := ⟨[], [], []⟩

/-- `x` is recorded as an adjacent node of key `k` in map `m`. -/
def inAdjB (m : AdjMap) (k x : Nat) : Bool :=
  match mapFind m k with
  | some l => l.contains x
  | none => false

/-- Message of the `DuplicateNode` error thrown by `add_node`. -/
def dupMsg : String := "Trying to insert node that already exists in node_set_\n"

/-- Message of the `UnknownNode` error thrown by `add_edge` for the source node. -/
def fromMsg : String := "from_node doesn't exist in node_set_\n"

/-- Message of the `UnknownNode` error thrown by `add_edge` for the target node. -/
def toMsg : String := "to_node doesn't exist in node_set_\n"

/-- Message of the `IncompatibleNodeSets` error thrown by `operator+`. -/
def incompatibleMsg : String := "Graph union is only supported on graphs with identical node sets\n"

/-- Stand-in for the `std::out_of_range` raised by `std::map::at` on a missing key. -/
def outOfRangeMsg : String := "map::at"

/-- `Graph::add_node`. -/
def add_node (g : Graph) (n : Nat) : Except String Graph :=
  if n ∈ g.node_set then .error dupMsg
  else .ok { node_set := setInsert g.node_set n,
             succ_map := mapInsert g.succ_map n [],
             pred_map := mapInsert g.pred_map n [] }

/-- `Graph::add_edge`.  The duplicate-edge branch prints a warning and
returns with the graph unchanged. -/
def add_edge (g : Graph) (from_node to_node : Nat) : Except String Graph :=
  if from_node ∉ g.node_set then .error fromMsg
  else if to_node ∉ g.node_set then .error toMsg
  else
    match mapFind g.succ_map from_node with
    | none => .error outOfRangeMsg
    | some sa =>
      if to_node ∈ sa then .ok g
      else
        match mapFind g.pred_map to_node with
        | none => .error outOfRangeMsg
        | some pb =>
          .ok { g with
                succ_map := mapSet g.succ_map from_node
                  (List.insertionSort (· ≤ ·) (sa ++ [to_node])),
                pred_map := mapSet g.pred_map to_node
                  (List.insertionSort (· ≤ ·) (pb ++ [from_node])) }

/-- `Graph::operator==`: compare node set and both adjacency maps. -/
def beqGraph (a b : Graph) : Bool :=
  decide (a.node_set = b.node_set) &&
  decide (a.succ_map = b.succ_map) &&
  decide (a.pred_map = b.pred_map)

/-- `Graph::exists_edge`.  `and` short-circuits, so the predecessor map is
consulted only when `b` was found among `a`'s successors. -/
def exists_edge (g : Graph) (a b : Nat) : Option Bool :=
  match mapFind g.succ_map a with
  | none => none
  | some sa =>
    if b ∈ sa then
      match mapFind g.pred_map b with
      | none => none
      | some pb => some (decide (a ∈ pb))
    else some false

/-- `Graph::copy_and_clear`: copy the graph, then clear the vector stored at
every node of the copy. -/
def copy_and_clear (g : Graph) : Graph :=
  { g with
    succ_map := g.node_set.foldl (fun m n => mapSet m n []) g.succ_map,
    pred_map := g.node_set.foldl (fun m n => mapSet m n []) g.pred_map }

/-- The ordered edge list of a graph as iterated by
`for (node : succ_map_) for (neighbor : node.second)`. -/
def edgesOf (g : Graph) : List (Nat × Nat) :=
  g.succ_map.flatMap fun p => p.2.map fun v => (p.1, v)

/-- `Graph::operator+` (union of edge sets over identical node sets). -/
def union (g : Graph) (b : Graph) : Except String Graph :=
  if g.node_set ≠ b.node_set then .error incompatibleMsg
  else
    (edgesOf g ++ edgesOf b).foldlM (fun r e => add_edge r e.1 e.2)
      (copy_and_clear g)

/-- `Graph::transpose`: start from `copy_and_clear`, then for every source
edge `u → v` append `u` to the copy's `succ_map` at `v` and `v` to its
`pred_map` at `u` (direct writes, no re-sorting). -/
def transpose (g : Graph) : Graph :=
  g.succ_map.foldl
    (fun tg p =>
      p.2.foldl
        (fun tg2 v =>
          { tg2 with
            succ_map := mapPush tg2.succ_map v p.1,
            pred_map := mapPush tg2.pred_map p.1 v })
        tg)
    (copy_and_clear g)

/-- The per-edge step of `transpose`: for a source edge `(u, v)` append `u`
to the target's `succ_map` at `v` and `v` to its `pred_map` at `u`. -/
def tStep (tg : Graph) (e : Nat × Nat) : Graph :=
  { tg with
    succ_map := mapPush tg.succ_map e.2 e.1,
    pred_map := mapPush tg.pred_map e.1 e.2 }

/-- Well-formedness of the graph store: this is invariant 1–3 of the spec
(`nodes` is the key domain of both maps, adjacency symmetry, strictly
sorted duplicate-free adjacency lists) plus sortedness of the node set
itself, which `std::set` provides by construction. -/
def WF (g : Graph) : Prop :=
  List.Sorted (· < ·) g.node_set ∧
  mapKeys g.succ_map = g.node_set ∧
  mapKeys g.pred_map = g.node_set ∧
  (∀ p ∈ g.succ_map, List.Sorted (· < ·) p.2) ∧
  (∀ p ∈ g.pred_map, List.Sorted (· < ·) p.2) ∧
  (∀ p ∈ g.succ_map, ∀ x ∈ p.2, inAdjB g.pred_map x p.1 = true) ∧
  (∀ p ∈ g.pred_map, ∀ x ∈ p.2, inAdjB g.succ_map x p.1 = true)

instance (g : Graph) : Decidable (WF g) := by
  unfold WF; infer_instance

/-! ## Depth-first search -/

/-- The three colors of `Graph::DfsProps::Color`, in source declaration order. -/
inductive Color where
  | WHITE
  | BLACK
  | GRAY
deriving DecidableEq, Repr

/-- Per-node DFS book-keeping (`Graph::DfsProps`); `parent` is a raw node
value whose "no parent" sentinel is the default-constructed `NodeType()`,
i.e. `0` at `NodeType := Nat`. -/
structure DfsProps where
  parent : Nat
  discovery_time : Int
  finish_time : Int
  color : Color
deriving DecidableEq, Repr

/-- The DFS property map.  In the source this is a `std::map` whose key set
is always the graph's `node_set_` (it is built by `init_dfs_map` and only
updated through `at`), so it is modelled as a total function read and
written at node keys. -/
abbrev DfsPropMap := Nat → DfsProps

/-- Point update of the property map (`dfs_prop_map.at(k) = p`). -/
def setProp (m : DfsPropMap) (k : Nat) (p : DfsProps) : DfsPropMap :=
  fun x => if x = k then p else m x

/-- `Graph::init_dfs_map`: every node of the graph is mapped to
`{NodeType(), -1, -1, WHITE}`. -/
def init_dfs_map (_g : Graph) : DfsPropMap :=
  fun _ => ⟨0, -1, -1, Color.WHITE⟩

/-- The successor vector consulted by `succ_map_.at(node)`; total with
default `[]`, the key being present on every node of a well-formed graph. -/
def succList (g : Graph) (n : Nat) : List Nat :=
  (mapFind g.succ_map n).getD []

/-- Recursion fuel for `dfs_visit`.  The C++ recursion terminates because
every recursive call is made on a white node that is immediately colored
gray, so the nesting depth never exceeds the node count. -/
def dfsFuel (g : Graph) : Nat := g.node_set.length

/-- `Graph::dfs_visit`: stamp the discovery time, color the node gray, walk
the successor vector (a `foldl` threading clock, visited list and property
map) recursing on white successors, then color the node black and stamp the
finish time.  Returns the updated clock, the visited nodes in pre-order, and
the updated property map.  Structural recursion on the fuel. -/
def dfs_visit (g : Graph) (fuel : Nat) (node : Nat) (m : DfsPropMap)
    (passed_time : Int) : Int × List Nat × DfsPropMap :=
  match fuel with
  | 0 => (passed_time, [], m)
  | fuel' + 1 =>
    let time := passed_time + 1
    let m1 := setProp m node { m node with discovery_time := time, color := Color.GRAY }
    let r := (succList g node).foldl
      (fun st nb =>
        if (st.2.2 nb).color = Color.WHITE then
          let m2 := setProp st.2.2 nb { st.2.2 nb with parent := node }
          let r2 := dfs_visit g fuel' nb m2 st.1
          (r2.1, st.2.1 ++ r2.2.1, r2.2.2)
        else st)
      (time, ([] : List Nat), m1)
    let m3 := setProp r.2.2 node { r.2.2 node with color := Color.BLACK }
    (r.1 + 1, node :: r.2.1,
      setProp m3 node { m3 node with finish_time := r.1 + 1 })

/-- The successor loop of `dfs_visit`, written as a recursion over the
neighbor vector (proved below to agree with the `foldl` form). -/
def visitLoop (g : Graph) (fuel : Nat) (node : Nat) :
    List Nat → DfsPropMap → Int → Int × List Nat × DfsPropMap
  | [], m, time => (time, [], m)
  | nb :: rest, m, time =>
    if (m nb).color = Color.WHITE then
      let m1 := setProp m nb { m nb with parent := node }
      let r := dfs_visit g fuel nb m1 time
      let r2 := visitLoop g fuel node rest r.2.2 r.1
      (r2.1, r.2.1 ++ r2.2.1, r2.2.2)
    else
      visitLoop g fuel node rest m time

/-- The "set parent" update performed just before each recursive
`dfs_visit` call. -/
def parentAt (m : DfsPropMap) (nb node : Nat) : DfsPropMap :=
  setProp m nb { m nb with parent := node }

/-- The discovery update at the head of `dfs_visit`: stamp the discovery
time and color the node gray. -/
def grayAt (m : DfsPropMap) (node : Nat) (t : Int) : DfsPropMap :=
  setProp m node { m node with discovery_time := t, color := Color.GRAY }

/-- The trailer of `dfs_visit`: color the node black, advance the clock,
stamp the finish time, and report the node first in the visited sequence. -/
def visitFinish (node : Nat) (r : Int × List Nat × DfsPropMap) :
    Int × List Nat × DfsPropMap :=
  let m3 := setProp r.2.2 node { r.2.2 node with color := Color.BLACK }
  (r.1 + 1, node :: r.2.1, setProp m3 node { m3 node with finish_time := r.1 + 1 })

/-- Insertion into a list sorted by the comparator (helper of `sortBy`). -/
def insertBy (cmp : Nat → Nat → Bool) (x : Nat) : List Nat → List Nat
  | [] => [x]
  | y :: ys => if cmp x y then x :: y :: ys else y :: insertBy cmp x ys

/-- `std::sort` over a node vector with a strict-weak-order comparator,
modelled as insertion sort (the orders produced agree on the tie-free
comparators the source uses). -/
def sortBy (cmp : Nat → Nat → Bool) : List Nat → List Nat
  | [] => []
  | x :: xs => insertBy cmp x (sortBy cmp xs)

/-- `Graph::dfs`: initialize the property map, sort the nodes with the
comparator, and visit every still-white node in that order, threading the
clock. -/
def dfs (g : Graph) (cmp : Nat → Nat → Bool) : DfsPropMap :=
  (((sortBy cmp g.node_set).foldl
      (fun (st : Int × DfsPropMap) node =>
        if (st.2 node).color = Color.WHITE then
          let r := dfs_visit g (dfsFuel g) node st.2 st.1
          (r.1, r.2.2)
        else st)
      ((0 : Int), init_dfs_map g))).2

/-- Run a mutating call modelled as `Except`: on success the new state, on a
throw the state the method left behind (its throws precede every mutation). -/
def runG (r : Except String Graph) (g : Graph) : Graph :=
  match r with
  | .ok g' => g'
  | .error _ => g

/-- `Graph::dfs_forest`: run `dfs`, add every node of the property map to a
fresh graph, then add an edge `parent → node` for every node whose parent is
not the sentinel `NodeType()` (= `0`).  The property map's key set is the
graph's node set, so iterating it is iterating `node_set`. -/
def dfs_forest (g : Graph) (cmp : Nat → Nat → Bool) : Graph :=
  let dfs_map := dfs g cmp
  let ret := g.node_set.foldl (fun r n => runG (add_node r n) r) emptyGraph
  g.node_set.foldl
    (fun r n =>
      if (dfs_map n).parent ≠ 0 then runG (add_edge r ((dfs_map n).parent) n) r
      else r)
    ret

/-- The component-extraction loop of `Graph::scc`: while the node pool is
non-empty, run one `dfs_visit` on the forest from the pool's front node with
a fresh property map, erase the visited nodes from the pool, and record them
as one component.  Fuel bounds the number of loop iterations. -/
def sccLoop (forest : Graph) : Nat → List Nat → List (List Nat)
  | 0, _ => []
  | _ + 1, [] => []
  | fuel + 1, front :: rest =>
    let visited :=
      (dfs_visit forest (dfsFuel forest) front (init_dfs_map forest) 0).2.1
    let remaining := (front :: rest).filter fun x => !(visited.contains x)
    visited :: sccLoop forest fuel remaining

/-- `Graph::scc` (Kosaraju): first DFS in natural node order, transpose,
DFS forest of the transpose in decreasing first-pass finish time, then
extract components of the forest. -/
def scc (g : Graph) : List (List Nat) :=
  let dfs_map := dfs g (fun a b => a < b)
  let graph_transpose := transpose g
  let rev_dfs_forest := dfs_forest graph_transpose
    (fun n1 n2 => (dfs_map n2).finish_time < (dfs_map n1).finish_time)
  let node_vector := rev_dfs_forest.node_set
  sccLoop rev_dfs_forest node_vector.length node_vector

/-! ## Derived notions used by the statements -/

/-- The directed-edge relation of a graph: `b` is recorded among the
successors of `a`. -/
def hasEdge (g : Graph) (a b : Nat) : Bool := inAdjB g.succ_map a b

/-- The graphs reachable from a freshly constructed graph through successful
`add_node` / `add_edge` calls. -/
inductive Built : Graph → Prop where
  | empty : Built emptyGraph
  | node {g g' : Graph} {n : Nat} : Built g → add_node g n = .ok g' → Built g'
  | edge {g g' : Graph} {a b : Nat} : Built g → add_edge g a b = .ok g' → Built g'

/-- The number of white nodes of the graph under a property map; the DFS
recursion depth is bounded by it. -/
def whiteCount (g : Graph) (m : DfsPropMap) : Nat :=
  (g.node_set.filter fun k => decide ((m k).color = Color.WHITE)).length

/-- The successor loop of `dfs_visit` seen as the sequence of recursive
calls it performs: for each neighbor in vector order that is white when
reached, set its parent and run `dfs_visit`, collecting each call's visited
sequence separately and threading clock and property map exactly as the
loop does. -/
def childRuns (g : Graph) (fuel : Nat) (node : Nat) :
    List Nat → DfsPropMap → Int → Int × List (List Nat) × DfsPropMap
  | [], m, time => (time, [], m)
  | nb :: rest, m, time =>
    if (m nb).color = Color.WHITE then
      let m1 := setProp m nb { m nb with parent := node }
      let r := dfs_visit g fuel nb m1 time
      let r2 := childRuns g fuel node rest r.2.2 r.1
      (r2.1, r.2.1 :: r2.2.1, r2.2.2)
    else
      childRuns g fuel node rest m time

/-- Scenario A of the spec (the claims' {A,B,C} at A=1 < B=2 < C=3):
nodes {1,2,3}, edges 1→2, 2→3, 3→1, built through the public interface. -/
def buildA : Except String Graph := do
  let g ← add_node emptyGraph 1
  let g ← add_node g 2
  let g ← add_node g 3
  let g ← add_edge g 1 2
  let g ← add_edge g 2 3
  let g ← add_edge g 3 1
  pure g

/-- The graph value Scenario A builds. -/
def gA : Graph :=
  ⟨[1, 2, 3], [(1, [2]), (2, [3]), (3, [1])], [(1, [3]), (2, [1]), (3, [2])]⟩

/-- A three-node graph exposing the SCC extraction bug: nodes {1,2,3},
edges 1→3, 3→2, 2→3 (so {2,3} is one strongly connected component). -/
def buildBug : Except String Graph := do
  let g ← add_node emptyGraph 1
  let g ← add_node g 2
  let g ← add_node g 3
  let g ← add_edge g 1 3
  let g ← add_edge g 3 2
  let g ← add_edge g 2 3
  pure g

/-- The graph value `buildBug` builds. -/
def gBug : Graph :=
  ⟨[1, 2, 3], [(1, [3]), (2, [3]), (3, [2])], [(1, []), (2, [3]), (3, [1, 2])]⟩

/-! ## Association-list lemmas -/

theorem mapFind_eq_none_iff {m : AdjMap} {k : Nat} :
    mapFind m k = none ↔ k ∉ mapKeys m := by
  induction m with
  | nil => simp [mapFind, mapKeys]
  | cons p rest ih =>
    obtain ⟨k', v⟩ := p
    by_cases h : k' = k
    · subst h
      simp [mapFind, mapKeys]
    · simp [mapFind, mapKeys, h, ih, Ne.symm h]

theorem mem_keys_of_mapFind {m : AdjMap} {k : Nat} {l : List Nat}
    (h : mapFind m k = some l) : k ∈ mapKeys m := by
  by_contra hk
  rw [← mapFind_eq_none_iff] at hk
  simp [hk] at h

theorem mapFind_isSome_of_mem_keys {m : AdjMap} {k : Nat}
    (h : k ∈ mapKeys m) : ∃ l, mapFind m k = some l := by
  cases hf : mapFind m k with
  | none => exact absurd (mapFind_eq_none_iff.mp hf) (by simp [h])
  | some l => exact ⟨l, rfl⟩

theorem mem_of_mapFind {m : AdjMap} {k : Nat} {l : List Nat}
    (h : mapFind m k = some l) : (k, l) ∈ m := by
  induction m with
  | nil => simp [mapFind] at h
  | cons p rest ih =>
    obtain ⟨k', v⟩ := p
    by_cases hk : k' = k
    · subst hk
      simp [mapFind] at h
      simp [h]
    · simp [mapFind, hk] at h
      simp [ih h]

theorem mapFind_of_mem {m : AdjMap} {k : Nat} {l : List Nat}
    (hnd : (mapKeys m).Nodup) (h : (k, l) ∈ m) : mapFind m k = some l := by
  induction m with
  | nil => simp at h
  | cons p rest ih =>
    obtain ⟨k', v⟩ := p
    have hnd' := List.nodup_cons.mp (show (k' :: mapKeys rest).Nodup from hnd)
    rcases List.mem_cons.mp h with h1 | h1
    · cases h1
      simp [mapFind]
    · have hk' : ¬ k' = k := by
        intro he
        subst he
        exact hnd'.1 (by simpa [mapKeys] using List.mem_map_of_mem Prod.fst h1)
      simp only [mapFind, if_neg hk']
      exact ih hnd'.2 h1

theorem mapFind_mapSet (m : AdjMap) (k : Nat) (v : List Nat) (k' : Nat) :
    mapFind (mapSet m k v) k' =
      if k' = k then (mapFind m k).map (fun _ => v) else mapFind m k' := by
  induction m with
  | nil => by_cases h : k' = k <;> simp [mapSet, mapFind, h]
  | cons p rest ih =>
    obtain ⟨k0, v0⟩ := p
    by_cases hk : k = k0
    · subst hk
      by_cases h' : k' = k
      · subst h'
        simp [mapSet, mapFind]
      · simp [mapSet, mapFind, h', Ne.symm h']
    · by_cases h0 : k0 = k'
      · subst h0
        have h2 : ¬ k0 = k := fun he => hk he.symm
        simp [mapSet, mapFind, hk, h2, Ne.symm hk]
      · simp [mapSet, mapFind, hk, h0, ih, Ne.symm hk]

theorem mapKeys_mapSet (m : AdjMap) (k : Nat) (v : List Nat) :
    mapKeys (mapSet m k v) = mapKeys m := by
  induction m with
  | nil => simp [mapSet]
  | cons p rest ih =>
    obtain ⟨k0, v0⟩ := p
    by_cases hk : k = k0
    · simp [mapSet, hk, mapKeys]
    · simp only [mapSet, if_neg hk]
      simp [mapKeys] at ih ⊢
      exact ih

theorem mem_mapSet {m : AdjMap} {k : Nat} {v : List Nat} {p : Nat × List Nat}
    (h : p ∈ mapSet m k v) : p = (k, v) ∨ p ∈ m := by
  induction m with
  | nil => simp [mapSet] at h
  | cons q rest ih =>
    obtain ⟨k0, v0⟩ := q
    by_cases hk : k = k0
    · rw [show mapSet ((k0, v0) :: rest) k v = (k, v) :: rest by simp [mapSet, hk]] at h
      rcases List.mem_cons.mp h with h1 | h1
      · exact Or.inl h1
      · exact Or.inr (List.mem_cons_of_mem _ h1)
    · rw [show mapSet ((k0, v0) :: rest) k v = (k0, v0) :: mapSet rest k v by
        simp [mapSet, hk]] at h
      rcases List.mem_cons.mp h with h1 | h1
      · exact Or.inr (by simp [h1])
      · rcases ih h1 with h2 | h2
        · exact Or.inl h2
        · exact Or.inr (List.mem_cons_of_mem _ h2)

theorem mapFind_mapPush (m : AdjMap) (k x : Nat) (k' : Nat) :
    mapFind (mapPush m k x) k' =
      if k' = k then (mapFind m k).map (fun l => l ++ [x]) else mapFind m k' := by
  induction m with
  | nil => by_cases h : k' = k <;> simp [mapPush, mapFind, h]
  | cons p rest ih =>
    obtain ⟨k0, v0⟩ := p
    by_cases hk : k = k0
    · subst hk
      by_cases h' : k' = k
      · subst h'
        simp [mapPush, mapFind]
      · simp [mapPush, mapFind, h', Ne.symm h']
    · by_cases h0 : k0 = k'
      · subst h0
        have h2 : ¬ k0 = k := fun he => hk he.symm
        simp [mapPush, mapFind, hk, h2, Ne.symm hk]
      · simp [mapPush, mapFind, hk, h0, ih, Ne.symm hk]

theorem mapKeys_mapPush (m : AdjMap) (k x : Nat) :
    mapKeys (mapPush m k x) = mapKeys m := by
  induction m with
  | nil => simp [mapPush]
  | cons p rest ih =>
    obtain ⟨k0, v0⟩ := p
    by_cases hk : k = k0
    · simp [mapPush, hk, mapKeys]
    · simp only [mapPush, if_neg hk]
      simp [mapKeys] at ih ⊢
      exact ih

theorem mapFind_mapInsert (m : AdjMap) (k : Nat) (v : List Nat) (k' : Nat) :
    mapFind (mapInsert m k v) k' =
      if k' = k then some v else mapFind m k' := by
  induction m with
  | nil =>
    by_cases h : k' = k
    · simp [mapInsert, mapFind, h]
    · simp [mapInsert, mapFind, h, Ne.symm h]
  | cons p rest ih =>
    obtain ⟨k0, v0⟩ := p
    rcases Nat.lt_trichotomy k k0 with hlt | heq | hgt
    · have hne : ¬ k = k0 := by omega
      by_cases h' : k' = k
      · subst h'
        simp [mapInsert, hlt, mapFind]
      · simp [mapInsert, hlt, mapFind, h', Ne.symm h']
    · subst heq
      by_cases h' : k' = k
      · subst h'
        simp [mapInsert, mapFind]
      · simp [mapInsert, mapFind, h', Ne.symm h']
    · have h1 : ¬ k < k0 := by omega
      have h2 : ¬ k = k0 := by omega
      by_cases h0 : k0 = k'
      · subst h0
        have h3 : ¬ k0 = k := fun he => h2 he.symm
        simp [mapInsert, h1, h2, mapFind, h3]
      · simp [mapInsert, h1, h2, mapFind, h0, ih]

theorem mapKeys_mapInsert (m : AdjMap) (k : Nat) (v : List Nat) :
    mapKeys (mapInsert m k v) = setInsert (mapKeys m) k := by
  induction m with
  | nil => simp [mapInsert, setInsert, mapKeys]
  | cons p rest ih =>
    obtain ⟨k0, v0⟩ := p
    rcases Nat.lt_trichotomy k k0 with hlt | heq | hgt
    · simp [mapInsert, hlt, mapKeys, setInsert]
    · subst heq
      simp [mapInsert, mapKeys, setInsert]
    · have h1 : ¬ k < k0 := by omega
      have h2 : ¬ k = k0 := by omega
      simp only [mapInsert, if_neg h1, if_neg h2]
      simp [mapKeys, setInsert, h1, h2] at ih ⊢
      exact ih

theorem mem_mapInsert {m : AdjMap} {k : Nat} {v : List Nat} {p : Nat × List Nat}
    (h : p ∈ mapInsert m k v) : p = (k, v) ∨ p ∈ m := by
  induction m with
  | nil =>
    simp [mapInsert] at h
    exact Or.inl (by simp [h])
  | cons q rest ih =>
    obtain ⟨k0, v0⟩ := q
    rcases Nat.lt_trichotomy k k0 with hlt | heq | hgt
    · rw [show mapInsert ((k0, v0) :: rest) k v = (k, v) :: (k0, v0) :: rest by
        simp [mapInsert, hlt]] at h
      rcases List.mem_cons.mp h with h1 | h1
      · exact Or.inl h1
      · exact Or.inr h1
    · subst heq
      rw [show mapInsert ((k, v0) :: rest) k v = (k, v) :: rest by
        simp [mapInsert]] at h
      rcases List.mem_cons.mp h with h1 | h1
      · exact Or.inl h1
      · exact Or.inr (List.mem_cons_of_mem _ h1)
    · have h1 : ¬ k < k0 := by omega
      have h2 : ¬ k = k0 := by omega
      rw [show mapInsert ((k0, v0) :: rest) k v = (k0, v0) :: mapInsert rest k v by
        simp [mapInsert, h1, h2]] at h
      rcases List.mem_cons.mp h with h3 | h3
      · exact Or.inr (by simp [h3])
      · rcases ih h3 with h4 | h4
        · exact Or.inl h4
        · exact Or.inr (List.mem_cons_of_mem _ h4)

/-! ## Sorted-list lemmas -/

theorem mem_setInsert {l : List Nat} {n x : Nat} :
    x ∈ setInsert l n ↔ x = n ∨ x ∈ l := by
  induction l with
  | nil => simp [setInsert]
  | cons y ys ih =>
    rcases Nat.lt_trichotomy n y with hlt | heq | hgt
    · simp [setInsert, hlt]
    · subst heq
      rw [show setInsert (n :: ys) n = n :: ys by simp [setInsert]]
      simp only [List.mem_cons]
      tauto
    · have h1 : ¬ n < y := by omega
      have h2 : ¬ n = y := by omega
      simp only [setInsert, if_neg h1, if_neg h2, List.mem_cons, ih]
      tauto

theorem sorted_setInsert {l : List Nat} {n : Nat}
    (h : List.Sorted (· < ·) l) : List.Sorted (· < ·) (setInsert l n) := by
  induction l with
  | nil => simp [setInsert]
  | cons y ys ih =>
    rw [List.sorted_cons] at h
    rcases Nat.lt_trichotomy n y with hlt | heq | hgt
    · simp only [setInsert, if_pos hlt]
      rw [List.sorted_cons]
      refine ⟨?_, List.sorted_cons.mpr h⟩
      intro b hb
      rcases List.mem_cons.mp hb with hb | hb
      · exact hb ▸ hlt
      · exact Nat.lt_trans hlt (h.1 b hb)
    · subst heq
      simp only [setInsert, if_neg (Nat.lt_irrefl n), if_pos rfl]
      exact List.sorted_cons.mpr h
    · have h1 : ¬ n < y := by omega
      have h2 : ¬ n = y := by omega
      simp only [setInsert, if_neg h1, if_neg h2]
      rw [List.sorted_cons]
      refine ⟨?_, ih h.2⟩
      intro b hb
      rcases mem_setInsert.mp hb with hb | hb
      · exact hb ▸ hgt
      · exact h.1 b hb

theorem eq_of_sorted_of_mem {l1 l2 : List Nat}
    (h1 : List.Sorted (· < ·) l1) (h2 : List.Sorted (· < ·) l2)
    (hm : ∀ x, x ∈ l1 ↔ x ∈ l2) : l1 = l2 := by
  induction l1 generalizing l2 with
  | nil =>
    cases l2 with
    | nil => rfl
    | cons y ys => exact absurd ((hm y).mpr (by simp)) (by simp)
  | cons x xs ih =>
    cases l2 with
    | nil => exact absurd ((hm x).mp (by simp)) (by simp)
    | cons y ys =>
      rw [List.sorted_cons] at h1 h2
      have hxy : x = y := by
        rcases List.mem_cons.mp ((hm x).mp (by simp)) with h | h
        · exact h
        · rcases List.mem_cons.mp ((hm y).mpr (by simp)) with h' | h'
          · exact h'.symm
          · exact absurd (Nat.lt_trans (h2.1 x h) (h1.1 y h')) (Nat.lt_irrefl _)
      subst hxy
      have htl : ∀ z, z ∈ xs ↔ z ∈ ys := by
        intro z
        constructor
        · intro hz
          rcases List.mem_cons.mp ((hm z).mp (List.mem_cons_of_mem _ hz)) with h | h
          · exact absurd (h ▸ h1.1 z hz) (Nat.lt_irrefl _)
          · exact h
        · intro hz
          rcases List.mem_cons.mp ((hm z).mpr (List.mem_cons_of_mem _ hz)) with h | h
          · exact absurd (h ▸ h2.1 z hz) (Nat.lt_irrefl _)
          · exact h
      rw [ih h1.2 h2.2 htl]

theorem assoc_ext {m1 m2 : AdjMap}
    (hk : mapKeys m1 = mapKeys m2) (hnd : (mapKeys m1).Nodup)
    (hf : ∀ k, mapFind m1 k = mapFind m2 k) : m1 = m2 := by
  induction m1 generalizing m2 with
  | nil =>
    cases m2 with
    | nil => rfl
    | cons q t2 => exact absurd hk (by simp [mapKeys])
  | cons p t1 ih =>
    obtain ⟨k, v⟩ := p
    cases m2 with
    | nil => exact absurd hk (by simp [mapKeys])
    | cons q t2 =>
      obtain ⟨k2, v2⟩ := q
      have hcons : k :: mapKeys t1 = k2 :: mapKeys t2 := hk
      have hkk : k = k2 := by injection hcons
      have htk : mapKeys t1 = mapKeys t2 := by injection hcons
      subst hkk
      have hnd' := List.nodup_cons.mp (show (k :: mapKeys t1).Nodup from hnd)
      have hv : v = v2 := by
        have h := hf k
        simpa [mapFind] using h
      subst hv
      have htf : ∀ k', mapFind t1 k' = mapFind t2 k' := by
        intro k'
        by_cases hkk' : k = k'
        · subst hkk'
          rw [mapFind_eq_none_iff.mpr hnd'.1, mapFind_eq_none_iff.mpr (htk ▸ hnd'.1)]
        · have h := hf k'
          simpa [mapFind, hkk'] using h
      rw [ih htk hnd'.2 htf]

/-! ## Well-formedness toolkit -/

theorem contains_iff {l : List Nat} {x : Nat} : l.contains x = true ↔ x ∈ l := by
  simp

theorem inAdjB_iff {m : AdjMap} {k x : Nat} :
    inAdjB m k x = true ↔ ∃ l, mapFind m k = some l ∧ x ∈ l := by
  unfold inAdjB
  cases h : mapFind m k with
  | none => simp
  | some l => simp [contains_iff]

theorem sorted_lt_of_sorted_le_nodup {l : List Nat}
    (hs : List.Sorted (· ≤ ·) l) (hn : l.Nodup) : List.Sorted (· < ·) l :=
  (hs.and hn).imp fun h => lt_of_le_of_ne h.1 h.2

theorem WF.nodes_sorted {g : Graph} (h : WF g) :
    List.Sorted (· < ·) g.node_set := h.1

theorem WF.succ_keys {g : Graph} (h : WF g) :
    mapKeys g.succ_map = g.node_set := h.2.1

theorem WF.pred_keys {g : Graph} (h : WF g) :
    mapKeys g.pred_map = g.node_set := h.2.2.1

theorem WF.nodes_nodup {g : Graph} (h : WF g) : g.node_set.Nodup :=
  h.nodes_sorted.nodup

theorem WF.find_succ_sorted {g : Graph} {k : Nat} {l : List Nat} (h : WF g)
    (hf : mapFind g.succ_map k = some l) : List.Sorted (· < ·) l :=
  h.2.2.2.1 (k, l) (mem_of_mapFind hf)

theorem WF.find_pred_sorted {g : Graph} {k : Nat} {l : List Nat} (h : WF g)
    (hf : mapFind g.pred_map k = some l) : List.Sorted (· < ·) l :=
  h.2.2.2.2.1 (k, l) (mem_of_mapFind hf)

theorem WF.adj_symm {g : Graph} (h : WF g) (a b : Nat) :
    inAdjB g.succ_map a b = true ↔ inAdjB g.pred_map b a = true := by
  constructor
  · intro hab
    obtain ⟨l, hf, hm⟩ := inAdjB_iff.mp hab
    exact h.2.2.2.2.2.1 (a, l) (mem_of_mapFind hf) b hm
  · intro hba
    obtain ⟨l, hf, hm⟩ := inAdjB_iff.mp hba
    exact h.2.2.2.2.2.2 (b, l) (mem_of_mapFind hf) a hm

theorem WF.hasEdge_mem_left {g : Graph} {a b : Nat} (h : WF g)
    (he : hasEdge g a b = true) : a ∈ g.node_set := by
  obtain ⟨l, hf, _⟩ := inAdjB_iff.mp he
  exact h.succ_keys ▸ mem_keys_of_mapFind hf

theorem WF.hasEdge_mem_right {g : Graph} {a b : Nat} (h : WF g)
    (he : hasEdge g a b = true) : b ∈ g.node_set := by
  obtain ⟨l, hf, _⟩ := inAdjB_iff.mp ((h.adj_symm a b).mp he)
  exact h.pred_keys ▸ mem_keys_of_mapFind hf

theorem wf_intro {g : Graph}
    (hs : List.Sorted (· < ·) g.node_set)
    (hsk : mapKeys g.succ_map = g.node_set)
    (hpk : mapKeys g.pred_map = g.node_set)
    (hsv : ∀ k l, mapFind g.succ_map k = some l → List.Sorted (· < ·) l)
    (hpv : ∀ k l, mapFind g.pred_map k = some l → List.Sorted (· < ·) l)
    (hsym : ∀ a b, inAdjB g.succ_map a b = true ↔ inAdjB g.pred_map b a = true) :
    WF g := by
  have hsnd : (mapKeys g.succ_map).Nodup := hsk ▸ hs.nodup
  have hpnd : (mapKeys g.pred_map).Nodup := hpk ▸ hs.nodup
  refine ⟨hs, hsk, hpk, ?_, ?_, ?_, ?_⟩
  · intro p hp
    exact hsv p.1 p.2 (mapFind_of_mem hsnd hp)
  · intro p hp
    exact hpv p.1 p.2 (mapFind_of_mem hpnd hp)
  · intro p hp x hx
    exact (hsym p.1 x).mp (inAdjB_iff.mpr ⟨p.2, mapFind_of_mem hsnd hp, hx⟩)
  · intro p hp x hx
    exact (hsym x p.1).mpr (inAdjB_iff.mpr ⟨p.2, mapFind_of_mem hpnd hp, hx⟩)

theorem inAdjB_mapInsert_nil (m : AdjMap) (n k x : Nat) :
    inAdjB (mapInsert m n []) k x = if k = n then false else inAdjB m k x := by
  unfold inAdjB
  rw [mapFind_mapInsert]
  by_cases h : k = n <;> simp [h]

theorem inAdjB_mapSet_of_find {m : AdjMap} {k : Nat} {w : List Nat}
    (hf : mapFind m k = some w) (v : List Nat) (k' x : Nat) :
    inAdjB (mapSet m k v) k' x = if k' = k then v.contains x else inAdjB m k' x := by
  unfold inAdjB
  rw [mapFind_mapSet]
  by_cases h : k' = k <;> simp [h, hf]

/-! ## `add_node` and `add_edge` characterizations -/

theorem wf_empty : WF emptyGraph := by
  constructor <;> simp [emptyGraph, mapKeys]

theorem wf_add_node {g g' : Graph} {n : Nat} (h : WF g)
    (ha : add_node g n = .ok g') : WF g' := by
  unfold add_node at ha
  by_cases hn : n ∈ g.node_set
  · simp [hn] at ha
  · simp only [hn, if_neg, ite_false, Except.ok.injEq, if_false] at ha
    subst ha
    refine wf_intro ?_ ?_ ?_ ?_ ?_ ?_
    · exact sorted_setInsert h.nodes_sorted
    · show mapKeys (mapInsert g.succ_map n []) = setInsert g.node_set n
      rw [mapKeys_mapInsert, h.succ_keys]
    · show mapKeys (mapInsert g.pred_map n []) = setInsert g.node_set n
      rw [mapKeys_mapInsert, h.pred_keys]
    · intro k l hf
      rw [show mapFind (mapInsert g.succ_map n []) k
            = if k = n then some [] else mapFind g.succ_map k
          from mapFind_mapInsert _ _ _ _] at hf
      by_cases hk : k = n
      · rw [if_pos hk] at hf
        injection hf with hf
        rw [← hf]
        simp
      · rw [if_neg hk] at hf
        exact h.find_succ_sorted hf
    · intro k l hf
      rw [show mapFind (mapInsert g.pred_map n []) k
            = if k = n then some [] else mapFind g.pred_map k
          from mapFind_mapInsert _ _ _ _] at hf
      by_cases hk : k = n
      · rw [if_pos hk] at hf
        injection hf with hf
        rw [← hf]
        simp
      · rw [if_neg hk] at hf
        exact h.find_pred_sorted hf
    · intro a b
      show inAdjB (mapInsert g.succ_map n []) a b = true ↔
        inAdjB (mapInsert g.pred_map n []) b a = true
      rw [inAdjB_mapInsert_nil, inAdjB_mapInsert_nil]
      by_cases hA : a = n
      · subst hA
        simp only [if_pos rfl]
        by_cases hB : b = a
        · simp [hB]
        · rw [if_neg hB]
          constructor
          · intro hFalse
            exact absurd hFalse (by simp)
          · intro hba
            have : a ∈ g.node_set :=
              h.succ_keys ▸ mem_keys_of_mapFind
                (inAdjB_iff.mp ((h.adj_symm a b).mpr hba)).choose_spec.1
            exact absurd this hn
      · rw [if_neg hA]
        by_cases hB : b = n
        · subst hB
          simp only [if_pos rfl]
          constructor
          · intro hab
            have : b ∈ g.node_set := h.hasEdge_mem_right (g := g) (a := a) hab
            exact absurd this hn
          · intro hFalse
            exact absurd hFalse (by simp)
        · rw [if_neg hB]
          exact h.adj_symm a b

theorem add_node_ok_shape {g : Graph} {n : Nat} (hn : n ∉ g.node_set) :
    add_node g n = .ok
      { node_set := setInsert g.node_set n,
        succ_map := mapInsert g.succ_map n [],
        pred_map := mapInsert g.pred_map n [] } := by
  unfold add_node
  rw [if_neg hn]

theorem add_node_error_iff {g : Graph} {n : Nat} :
    add_node g n = .error dupMsg ↔ n ∈ g.node_set := by
  unfold add_node
  by_cases hn : n ∈ g.node_set <;> simp [hn]

theorem add_edge_dup {g : Graph} {a b : Nat} (ha : a ∈ g.node_set)
    (hb : b ∈ g.node_set) (he : hasEdge g a b = true) :
    add_edge g a b = .ok g := by
  obtain ⟨sa, hsa, hmem⟩ := inAdjB_iff.mp he
  unfold add_edge
  simp [ha, hb, hsa, hmem]

theorem inAdjB_of_find {m : AdjMap} {k : Nat} {l : List Nat}
    (hf : mapFind m k = some l) (x : Nat) : inAdjB m k x = l.contains x := by
  unfold inAdjB
  rw [hf]

theorem insert_edge_list {l : List Nat} {x : Nat}
    (hS : List.Sorted (· < ·) l) (hx : x ∉ l) :
    List.Sorted (· < ·) (List.insertionSort (· ≤ ·) (l ++ [x])) ∧
    ∀ y, (y ∈ List.insertionSort (· ≤ ·) (l ++ [x]) ↔ y ∈ l ∨ y = x) := by
  have hperm := List.perm_insertionSort (· ≤ ·) (l ++ [x])
  have hnd : (l ++ [x]).Nodup := by
    rw [List.nodup_append]
    refine ⟨hS.nodup, List.nodup_singleton x, ?_⟩
    intro a hal hax
    simp at hax
    exact hx (hax ▸ hal)
  constructor
  · exact sorted_lt_of_sorted_le_nodup
      (List.sorted_insertionSort _ _) (hperm.nodup_iff.mpr hnd)
  · intro y
    rw [hperm.mem_iff]
    simp

theorem add_edge_ok {g : Graph} {a b : Nat} (h : WF g)
    (ha : a ∈ g.node_set) (hb : b ∈ g.node_set) :
    ∃ g', add_edge g a b = .ok g' ∧ WF g' ∧ g'.node_set = g.node_set ∧
      ∀ x y, (hasEdge g' x y = true ↔ hasEdge g x y = true ∨ (x = a ∧ y = b)) := by
  obtain ⟨sa, hsa⟩ := mapFind_isSome_of_mem_keys (h.succ_keys.symm ▸ ha)
  by_cases hdup : b ∈ sa
  · refine ⟨g, add_edge_dup ha hb (inAdjB_iff.mpr ⟨sa, hsa, hdup⟩), h, rfl, ?_⟩
    intro x y
    constructor
    · exact fun hxy => Or.inl hxy
    · rintro (hxy | ⟨hx, hy⟩)
      · exact hxy
      · subst hx
        subst hy
        exact inAdjB_iff.mpr ⟨sa, hsa, hdup⟩
  · obtain ⟨pb, hpb⟩ := mapFind_isSome_of_mem_keys (h.pred_keys.symm ▸ hb)
    have hsaS : List.Sorted (· < ·) sa := h.find_succ_sorted hsa
    have hpbS : List.Sorted (· < ·) pb := h.find_pred_sorted hpb
    have hpbA : a ∉ pb := by
      intro hmem
      have h1 : inAdjB g.succ_map a b = true :=
        (h.adj_symm a b).mpr (inAdjB_iff.mpr ⟨pb, hpb, hmem⟩)
      obtain ⟨l, hl, hbl⟩ := inAdjB_iff.mp h1
      rw [hsa] at hl
      injection hl with hl
      exact hdup (by rw [hl]; exact hbl)
    obtain ⟨hsa2S, hsa2M⟩ := insert_edge_list hsaS hdup
    obtain ⟨hpb2S, hpb2M⟩ := insert_edge_list hpbS hpbA
    refine ⟨{ g with
              succ_map := mapSet g.succ_map a (List.insertionSort (· ≤ ·) (sa ++ [b])),
              pred_map := mapSet g.pred_map b (List.insertionSort (· ≤ ·) (pb ++ [a])) },
            ?_, ?_, rfl, ?_⟩
    · unfold add_edge
      simp [ha, hb, hsa, hdup, hpb]
    · refine wf_intro h.nodes_sorted ?_ ?_ ?_ ?_ ?_
      · show mapKeys (mapSet g.succ_map a _) = g.node_set
        rw [mapKeys_mapSet, h.succ_keys]
      · show mapKeys (mapSet g.pred_map b _) = g.node_set
        rw [mapKeys_mapSet, h.pred_keys]
      · intro k l hf
        rw [mapFind_mapSet] at hf
        by_cases hk : k = a
        · rw [if_pos hk, hsa] at hf
          injection hf with hf
          rw [← hf]
          exact hsa2S
        · rw [if_neg hk] at hf
          exact h.find_succ_sorted hf
      · intro k l hf
        rw [mapFind_mapSet] at hf
        by_cases hk : k = b
        · rw [if_pos hk, hpb] at hf
          injection hf with hf
          rw [← hf]
          exact hpb2S
        · rw [if_neg hk] at hf
          exact h.find_pred_sorted hf
      · intro x y
        show inAdjB (mapSet g.succ_map a _) x y = true ↔
          inAdjB (mapSet g.pred_map b _) y x = true
        rw [inAdjB_mapSet_of_find hsa, inAdjB_mapSet_of_find hpb]
        by_cases hx : x = a
        · subst hx
          rw [if_pos rfl]
          by_cases hy : y = b
          · subst hy
            rw [if_pos rfl]
            simp [contains_iff, hsa2M, hpb2M]
          · rw [if_neg hy]
            rw [show (List.insertionSort (· ≤ ·) (sa ++ [b])).contains y
                  = decide (y ∈ sa) by
                simp [contains_iff, hsa2M, hy]]
            rw [show inAdjB g.pred_map y x = inAdjB g.succ_map x y from
              Bool.eq_iff_iff.mpr
                ⟨fun hp => (h.adj_symm x y).mpr hp, fun hs => (h.adj_symm x y).mp hs⟩]
            rw [inAdjB_of_find hsa]
            simp [contains_iff]
        · rw [if_neg hx]
          by_cases hy : y = b
          · subst hy
            rw [if_pos rfl]
            rw [show (List.insertionSort (· ≤ ·) (pb ++ [a])).contains x
                  = decide (x ∈ pb) by
                simp [contains_iff, hpb2M, hx]]
            rw [show inAdjB g.succ_map x y = inAdjB g.pred_map y x from
              Bool.eq_iff_iff.mpr ⟨fun hs => (h.adj_symm x y).mp hs,
                fun hp => (h.adj_symm x y).mpr hp⟩]
            rw [inAdjB_of_find hpb]
            simp [contains_iff]
          · rw [if_neg hy]
            exact h.adj_symm x y
    · intro x y
      show inAdjB (mapSet g.succ_map a _) x y = true ↔ _
      rw [inAdjB_mapSet_of_find hsa]
      by_cases hx : x = a
      · subst hx
        rw [if_pos rfl]
        unfold hasEdge
        rw [inAdjB_of_find hsa]
        simp [contains_iff, hsa2M]
      · rw [if_neg hx]
        unfold hasEdge
        simp [hx]

theorem add_edge_error_from {g : Graph} {a b : Nat} (ha : a ∉ g.node_set) :
    add_edge g a b = .error fromMsg := by
  unfold add_edge
  rw [if_pos ha]

theorem add_edge_error_to {g : Graph} {a b : Nat} (ha : a ∈ g.node_set)
    (hb : b ∉ g.node_set) : add_edge g a b = .error toMsg := by
  unfold add_edge
  rw [if_neg (not_not_intro ha), if_pos hb]

theorem add_edge_error_iff {g : Graph} {a b : Nat} (h : WF g) :
    (∃ e, add_edge g a b = .error e) ↔ (a ∉ g.node_set ∨ b ∉ g.node_set) := by
  constructor
  · rintro ⟨e, he⟩
    by_contra hc
    push_neg at hc
    obtain ⟨g', hok, -, -, -⟩ := add_edge_ok h hc.1 hc.2
    rw [hok] at he
    exact absurd he (by simp)
  · rintro (hA | hB)
    · exact ⟨fromMsg, add_edge_error_from hA⟩
    · by_cases hA : a ∈ g.node_set
      · exact ⟨toMsg, add_edge_error_to hA hB⟩
      · exact ⟨fromMsg, add_edge_error_from hA⟩

/-! ## Claim theorems (first batch) -/

/-- C1: the claim states that `scc` partitions the node set into strongly
connected components.  On the graph with nodes {1,2,3} and edges 1→3, 3→2,
2→3 (built through the public interface), the code returns
`[[1], [2], [3, 2]]`: node 2 occurs in two returned components, and 2 and 3
— directly connected in both directions — do not form one component, so the
output is not the SCC partition. -/
theorem scc_not_partition_eval :
    buildBug = .ok gBug ∧
    scc gBug = [[1], [2], [3, 2]] ∧
    hasEdge gBug 2 3 = true ∧ hasEdge gBug 3 2 = true ∧
    (scc gBug).countP (fun c => c.contains 2) = 2 := by
  refine ⟨rfl, by decide, by decide, by decide, by decide⟩

/-- C2: Scenario A — nodes {1,2,3} in ascending order with edges 1→2, 2→3,
3→1 — yields exactly one SCC whose element set is exactly the node set. -/
theorem scc_scenarioA :
    buildA = .ok gA ∧ scc gA = [[1, 3, 2]] ∧
    (scc gA).length = 1 ∧ [1, 3, 2].Perm gA.node_set := by
  refine ⟨rfl, by decide, by decide, by decide⟩

/-- C6: on a well-formed graph containing nodes `a` and `b`, the first
`add_edge a b` succeeds with some graph `g1`, and a second `add_edge a b`
raises no error and returns `g1` unchanged. -/
theorem add_edge_idempotent {g : Graph} (h : WF g) {a b : Nat}
    (ha : a ∈ g.node_set) (hb : b ∈ g.node_set) :
    ∃ g1, add_edge g a b = .ok g1 ∧ add_edge g1 a b = .ok g1 := by
  obtain ⟨g1, hok, hwf1, hns, hrel⟩ := add_edge_ok h ha hb
  exact ⟨g1, hok,
    add_edge_dup (hns.symm ▸ ha) (hns.symm ▸ hb) ((hrel a b).mpr (Or.inr ⟨rfl, rfl⟩))⟩

/-- Witness for C6 at a concrete graph: `gA` with the already-present edge
1→2 and again with the fresh edge 2→1. -/
theorem add_edge_idempotent_witness :
    ∃ g1, add_edge gA 2 1 = .ok g1 ∧ add_edge g1 2 1 = .ok g1 :=
  add_edge_idempotent (g := gA) (by decide) (by decide) (by decide)

/-- C7: `add_node n` fails with the `DuplicateNode` error exactly when `n`
is already a node; on success it stores `n` with empty successor and
predecessor lists, and a second `add_node n` then fails with
`DuplicateNode`. -/
theorem add_node_duplicate_check (g : Graph) (n : Nat) :
    (add_node g n = .error dupMsg ↔ n ∈ g.node_set) ∧
    (n ∉ g.node_set →
      ∃ g', add_node g n = .ok g' ∧
        mapFind g'.succ_map n = some [] ∧
        mapFind g'.pred_map n = some [] ∧
        n ∈ g'.node_set ∧
        add_node g' n = .error dupMsg) := by
  refine ⟨add_node_error_iff, ?_⟩
  intro hn
  refine ⟨_, add_node_ok_shape hn, ?_, ?_, ?_, ?_⟩
  · rw [show mapFind (mapInsert g.succ_map n []) n
        = if n = n then some [] else mapFind g.succ_map n
      from mapFind_mapInsert _ _ _ _]
    simp
  · rw [show mapFind (mapInsert g.pred_map n []) n
        = if n = n then some [] else mapFind g.pred_map n
      from mapFind_mapInsert _ _ _ _]
    simp
  · exact mem_setInsert.mpr (Or.inl rfl)
  · rw [add_node_error_iff]
    exact mem_setInsert.mpr (Or.inl rfl)

/-- Witness for C7: adding node 5 to the empty graph, then again. -/
theorem add_node_duplicate_check_witness :
    ∃ g', add_node emptyGraph 5 = .ok g' ∧
      mapFind g'.succ_map 5 = some [] ∧
      mapFind g'.pred_map 5 = some [] ∧
      5 ∈ g'.node_set ∧
      add_node g' 5 = .error dupMsg :=
  (add_node_duplicate_check emptyGraph 5).2 (by decide)

/-- C9: on a well-formed graph, `exists_edge a b` raises (returns `none`)
exactly when `a` is not a node; when `a` is a node and `b` is not, the
short-circuit conjunction returns `false` without consulting the
predecessor map at `b`. -/
theorem exists_edge_throw_iff {g : Graph} (h : WF g) (a b : Nat) :
    (exists_edge g a b = none ↔ a ∉ g.node_set) ∧
    (a ∈ g.node_set → b ∉ g.node_set → exists_edge g a b = some false) := by
  constructor
  · constructor
    · intro hn hA
      obtain ⟨sa, hsa⟩ := mapFind_isSome_of_mem_keys (h.succ_keys.symm ▸ hA)
      by_cases hb : b ∈ sa
      · have hbn : b ∈ g.node_set :=
          h.hasEdge_mem_right (a := a) (inAdjB_iff.mpr ⟨sa, hsa, hb⟩)
        obtain ⟨pb, hpb⟩ := mapFind_isSome_of_mem_keys (h.pred_keys.symm ▸ hbn)
        unfold exists_edge at hn
        simp [hsa, hb, hpb] at hn
      · unfold exists_edge at hn
        simp [hsa, hb] at hn
    · intro hA
      have hnone : mapFind g.succ_map a = none :=
        mapFind_eq_none_iff.mpr (fun hk => hA (h.succ_keys ▸ hk))
      unfold exists_edge
      rw [hnone]
  · intro hA hB
    obtain ⟨sa, hsa⟩ := mapFind_isSome_of_mem_keys (h.succ_keys.symm ▸ hA)
    have hb : b ∉ sa := by
      intro hmem
      exact hB (h.hasEdge_mem_right (a := a) (inAdjB_iff.mpr ⟨sa, hsa, hmem⟩))
    unfold exists_edge
    simp [hsa, hb]

/-- Witness for C9 at `gA`: node 7 is absent, node 1 present. -/
theorem exists_edge_throw_iff_witness :
    (exists_edge gA 7 1 = none ↔ 7 ∉ gA.node_set) ∧
    (1 ∈ gA.node_set → 7 ∉ gA.node_set → exists_edge gA 1 7 = some false) :=
  ⟨(exists_edge_throw_iff (by decide) 7 1).1, (exists_edge_throw_iff (by decide) 1 7).2⟩

/-- C10: on a well-formed graph, `add_edge` raises exactly when one of the
endpoints is absent, and in that case the call yields only the error —
both membership checks come before any map mutation, so no modified graph
is produced. -/
theorem add_edge_atomic_error {g : Graph} (h : WF g) (a b : Nat) :
    ((∃ e, add_edge g a b = .error e) ↔ (a ∉ g.node_set ∨ b ∉ g.node_set)) ∧
    (a ∉ g.node_set → add_edge g a b = .error fromMsg) ∧
    (a ∈ g.node_set → b ∉ g.node_set → add_edge g a b = .error toMsg) :=
  ⟨add_edge_error_iff h, fun hA => add_edge_error_from hA,
    fun hA hB => add_edge_error_to hA hB⟩

/-- Witness for C10 at `gA` and the absent endpoint 9. -/
theorem add_edge_atomic_error_witness :
    add_edge gA 9 1 = .error fromMsg ∧ add_edge gA 1 9 = .error toMsg :=
  ⟨(add_edge_atomic_error (by decide) 9 1).2.1 (by decide),
    (add_edge_atomic_error (by decide) 1 9).2.2 (by decide) (by decide)⟩

/-! ## `copy_and_clear` and `transpose` -/

theorem Graph.ext2 {g1 g2 : Graph} (h1 : g1.node_set = g2.node_set)
    (h2 : g1.succ_map = g2.succ_map) (h3 : g1.pred_map = g2.pred_map) :
    g1 = g2 := by
  cases g1
  cases g2
  simp_all

theorem mapKeys_foldl_clear (ns : List Nat) (m : AdjMap) :
    mapKeys (ns.foldl (fun m n => mapSet m n []) m) = mapKeys m := by
  induction ns generalizing m with
  | nil => rfl
  | cons n rest ih => rw [List.foldl_cons, ih, mapKeys_mapSet]

theorem mapFind_foldl_clear (ns : List Nat) (m : AdjMap) (k : Nat) :
    mapFind (ns.foldl (fun m n => mapSet m n []) m) k =
      if k ∈ ns then (mapFind m k).map (fun _ => ([] : List Nat)) else mapFind m k := by
  induction ns generalizing m with
  | nil => simp
  | cons n rest ih =>
    rw [List.foldl_cons, ih]
    by_cases hk : k = n
    · subst hk
      have h1 : mapFind (mapSet m k []) k = (mapFind m k).map (fun _ => ([] : List Nat)) := by
        rw [mapFind_mapSet, if_pos rfl]
      by_cases hr : k ∈ rest
      · rw [if_pos hr, h1, if_pos (show k ∈ k :: rest by simp)]
        cases mapFind m k <;> rfl
      · rw [if_neg hr, h1, if_pos (show k ∈ k :: rest by simp)]
    · have h1 : mapFind (mapSet m n []) k = mapFind m k := by
        rw [mapFind_mapSet, if_neg hk]
      rw [h1]
      by_cases hr : k ∈ rest
      · rw [if_pos hr, if_pos (show k ∈ n :: rest by simp [hr])]
      · rw [if_neg hr, if_neg (show ¬ k ∈ n :: rest by simp [hk, hr])]

theorem copy_and_clear_find_succ {g : Graph} (h : WF g) (k : Nat) :
    mapFind (copy_and_clear g).succ_map k =
      if k ∈ g.node_set then some [] else none := by
  show mapFind (g.node_set.foldl (fun m n => mapSet m n []) g.succ_map) k = _
  rw [mapFind_foldl_clear]
  by_cases hk : k ∈ g.node_set
  · obtain ⟨l, hl⟩ := mapFind_isSome_of_mem_keys (h.succ_keys.symm ▸ hk)
    simp [hk, hl]
  · have hn : mapFind g.succ_map k = none :=
      mapFind_eq_none_iff.mpr (fun hm => hk (h.succ_keys ▸ hm))
    simp [hk, hn]

theorem copy_and_clear_find_pred {g : Graph} (h : WF g) (k : Nat) :
    mapFind (copy_and_clear g).pred_map k =
      if k ∈ g.node_set then some [] else none := by
  show mapFind (g.node_set.foldl (fun m n => mapSet m n []) g.pred_map) k = _
  rw [mapFind_foldl_clear]
  by_cases hk : k ∈ g.node_set
  · obtain ⟨l, hl⟩ := mapFind_isSome_of_mem_keys (h.pred_keys.symm ▸ hk)
    simp [hk, hl]
  · have hn : mapFind g.pred_map k = none :=
      mapFind_eq_none_iff.mpr (fun hm => hk (h.pred_keys ▸ hm))
    simp [hk, hn]

theorem hasEdge_copy_and_clear {g : Graph} (h : WF g) (x y : Nat) :
    hasEdge (copy_and_clear g) x y = false := by
  unfold hasEdge inAdjB
  rw [copy_and_clear_find_succ h]
  by_cases hk : x ∈ g.node_set <;> simp [hk]

theorem wf_copy_and_clear {g : Graph} (h : WF g) : WF (copy_and_clear g) := by
  refine wf_intro h.nodes_sorted ?_ ?_ ?_ ?_ ?_
  · show mapKeys (g.node_set.foldl (fun m n => mapSet m n []) g.succ_map) = _
    rw [mapKeys_foldl_clear, h.succ_keys]
    rfl
  · show mapKeys (g.node_set.foldl (fun m n => mapSet m n []) g.pred_map) = _
    rw [mapKeys_foldl_clear, h.pred_keys]
    rfl
  · intro k l hf
    rw [copy_and_clear_find_succ h] at hf
    by_cases hk : k ∈ g.node_set
    · rw [if_pos hk] at hf
      injection hf with hf
      rw [← hf]
      simp
    · rw [if_neg hk] at hf
      cases hf
  · intro k l hf
    rw [copy_and_clear_find_pred h] at hf
    by_cases hk : k ∈ g.node_set
    · rw [if_pos hk] at hf
      injection hf with hf
      rw [← hf]
      simp
    · rw [if_neg hk] at hf
      cases hf
  · intro a b
    show inAdjB (copy_and_clear g).succ_map a b = true ↔
      inAdjB (copy_and_clear g).pred_map b a = true
    have hs : inAdjB (copy_and_clear g).succ_map a b = false :=
      hasEdge_copy_and_clear h a b
    have hp : inAdjB (copy_and_clear g).pred_map b a = false := by
      unfold inAdjB
      rw [copy_and_clear_find_pred h]
      by_cases hk : b ∈ g.node_set <;> simp [hk]
    rw [hs, hp]

theorem foldl_edges_general (sm : List (Nat × List Nat)) (base : Graph) :
    sm.foldl
      (fun tg p =>
        p.2.foldl
          (fun tg2 v =>
            { tg2 with
              succ_map := mapPush tg2.succ_map v p.1,
              pred_map := mapPush tg2.pred_map p.1 v })
          tg)
      base
    = (sm.flatMap fun p => p.2.map fun v => (p.1, v)).foldl tStep base := by
  induction sm generalizing base with
  | nil => rfl
  | cons p rest ih =>
    rw [List.foldl_cons, List.flatMap_cons, List.foldl_append, ih, List.foldl_map]
    rfl

theorem transpose_eq_foldl (g : Graph) :
    transpose g = (edgesOf g).foldl tStep (copy_and_clear g) :=
  foldl_edges_general g.succ_map (copy_and_clear g)

theorem tfold_node_set (es : List (Nat × Nat)) (tg : Graph) :
    (es.foldl tStep tg).node_set = tg.node_set := by
  induction es generalizing tg with
  | nil => rfl
  | cons e rest ih =>
    rw [List.foldl_cons, ih]
    rfl

theorem tfold_succ_keys (es : List (Nat × Nat)) (tg : Graph) :
    mapKeys (es.foldl tStep tg).succ_map = mapKeys tg.succ_map := by
  induction es generalizing tg with
  | nil => rfl
  | cons e rest ih =>
    rw [List.foldl_cons, ih]
    show mapKeys (mapPush tg.succ_map e.2 e.1) = _
    rw [mapKeys_mapPush]

theorem tfold_pred_keys (es : List (Nat × Nat)) (tg : Graph) :
    mapKeys (es.foldl tStep tg).pred_map = mapKeys tg.pred_map := by
  induction es generalizing tg with
  | nil => rfl
  | cons e rest ih =>
    rw [List.foldl_cons, ih]
    show mapKeys (mapPush tg.pred_map e.1 e.2) = _
    rw [mapKeys_mapPush]

theorem tfold_succ_find (es : List (Nat × Nat)) (tg : Graph) (k : Nat) :
    mapFind (es.foldl tStep tg).succ_map k =
      (mapFind tg.succ_map k).map
        (fun l => l ++ (es.filter (fun e => e.2 == k)).map Prod.fst) := by
  induction es generalizing tg with
  | nil =>
    rw [List.foldl_nil]
    cases mapFind tg.succ_map k <;> simp
  | cons e rest ih =>
    rw [List.foldl_cons, ih]
    show (mapFind (mapPush tg.succ_map e.2 e.1) k).map _ = _
    rw [mapFind_mapPush]
    by_cases hk : k = e.2
    · subst hk
      rw [if_pos rfl]
      have hfil : List.filter (fun e' => e'.2 == e.2) (e :: rest)
          = e :: List.filter (fun e' => e'.2 == e.2) rest := by
        simp [List.filter_cons]
      rw [hfil]
      cases mapFind tg.succ_map e.2 <;> simp
    · rw [if_neg hk]
      have hne : ¬ e.2 = k := fun he => hk he.symm
      have hfil : List.filter (fun e => e.2 == k) (e :: rest)
          = List.filter (fun e => e.2 == k) rest := by
        simp [List.filter_cons, hne]
      rw [hfil]

theorem tfold_pred_find (es : List (Nat × Nat)) (tg : Graph) (k : Nat) :
    mapFind (es.foldl tStep tg).pred_map k =
      (mapFind tg.pred_map k).map
        (fun l => l ++ (es.filter (fun e => e.1 == k)).map Prod.snd) := by
  induction es generalizing tg with
  | nil =>
    rw [List.foldl_nil]
    cases mapFind tg.pred_map k <;> simp
  | cons e rest ih =>
    rw [List.foldl_cons, ih]
    show (mapFind (mapPush tg.pred_map e.1 e.2) k).map _ = _
    rw [mapFind_mapPush]
    by_cases hk : k = e.1
    · subst hk
      rw [if_pos rfl]
      have hfil : List.filter (fun e' => e'.1 == e.1) (e :: rest)
          = e :: List.filter (fun e' => e'.1 == e.1) rest := by
        simp [List.filter_cons]
      rw [hfil]
      cases mapFind tg.pred_map e.1 <;> simp
    · rw [if_neg hk]
      have hne : ¬ e.1 = k := fun he => hk he.symm
      have hfil : List.filter (fun e => e.1 == k) (e :: rest)
          = List.filter (fun e => e.1 == k) rest := by
        simp [List.filter_cons, hne]
      rw [hfil]

theorem map_pair_filter_fst (l : List Nat) (c u : Nat) :
    ((l.map fun v => (c, v)).filter fun e => e.1 == u)
      = if c = u then l.map (fun v => (c, v)) else [] := by
  induction l with
  | nil => simp
  | cons x xs ih =>
    by_cases hc : c = u
    · simp [List.filter_cons, hc, ih]
    · simp [List.filter_cons, hc, ih]

theorem map_pair_filter_snd (l : List Nat) (c v : Nat) (hnd : l.Nodup) :
    ((l.map fun x => (c, x)).filter fun e => e.2 == v)
      = if v ∈ l then [(c, v)] else [] := by
  induction l with
  | nil => simp
  | cons x xs ih =>
    have hx := List.nodup_cons.mp hnd
    by_cases hv : x = v
    · subst hv
      have hrest : ((xs.map fun x => (c, x)).filter fun e => e.2 == x) = [] := by
        rw [ih hx.2, if_neg hx.1]
      simp [List.filter_cons, hrest]
    · have hne : ¬ v = x := fun he => hv he.symm
      simp [List.filter_cons, hv, ih hx.2, hne]

theorem flat_filter_fst (m : List (Nat × List Nat)) (u : Nat)
    (hnd : (mapKeys m).Nodup) :
    (((m.flatMap fun p => p.2.map fun v => (p.1, v)).filter fun e => e.1 == u).map
        Prod.snd)
      = (mapFind m u).getD [] := by
  induction m with
  | nil => simp [mapFind]
  | cons p rest ih =>
    have hnd' := List.nodup_cons.mp (show (p.1 :: mapKeys rest).Nodup from hnd)
    rw [List.flatMap_cons, List.filter_append, List.map_append,
      map_pair_filter_fst, ih hnd'.2]
    by_cases hu : p.1 = u
    · have hrest : mapFind rest u = none :=
        mapFind_eq_none_iff.mpr (fun hm => hnd'.1 (hu ▸ hm))
      have hfind : mapFind (p :: rest) u = some p.2 := by
        show (if p.1 = u then some p.2 else mapFind rest u) = some p.2
        rw [if_pos hu]
      rw [if_pos hu, hrest, hfind]
      simp
    · have hfind : mapFind (p :: rest) u = mapFind rest u := by
        show (if p.1 = u then some p.2 else mapFind rest u) = mapFind rest u
        rw [if_neg hu]
      rw [if_neg hu, hfind]
      simp

theorem flat_filter_snd (m : List (Nat × List Nat)) (v : Nat)
    (hvals : ∀ p ∈ m, p.2.Nodup) :
    (((m.flatMap fun p => p.2.map fun x => (p.1, x)).filter fun e => e.2 == v).map
        Prod.fst)
      = (m.filter fun p => decide (v ∈ p.2)).map Prod.fst := by
  induction m with
  | nil => simp
  | cons p rest ih =>
    rw [List.flatMap_cons, List.filter_append, List.map_append,
      map_pair_filter_snd p.2 p.1 v (hvals p (by simp)),
      ih (fun q hq => hvals q (by simp [hq]))]
    by_cases hv : v ∈ p.2
    · rw [if_pos hv]
      simp [List.filter_cons, hv]
    · rw [if_neg hv]
      simp [List.filter_cons, hv]

theorem mem_filter_map_fst {m : List (Nat × List Nat)} {u k : Nat}
    (hnd : (mapKeys m).Nodup) :
    (u ∈ (m.filter fun p => decide (k ∈ p.2)).map Prod.fst) ↔ inAdjB m u k = true := by
  rw [List.mem_map]
  constructor
  · rintro ⟨p, hp, hfst⟩
    rw [List.mem_filter] at hp
    have hf : mapFind m p.1 = some p.2 := mapFind_of_mem hnd hp.1
    subst hfst
    exact inAdjB_iff.mpr ⟨p.2, hf, by simpa using hp.2⟩
  · intro hadj
    obtain ⟨l, hl, hm⟩ := inAdjB_iff.mp hadj
    exact ⟨(u, l), List.mem_filter.mpr ⟨mem_of_mapFind hl, by simpa using hm⟩, rfl⟩

theorem sorted_filter_keys {g : Graph} (h : WF g) (k : Nat) :
    List.Sorted (· < ·) ((g.succ_map.filter fun p => decide (k ∈ p.2)).map Prod.fst) := by
  have hsub : ((g.succ_map.filter fun p => decide (k ∈ p.2)).map Prod.fst).Sublist
      (g.succ_map.map Prod.fst) :=
    (List.filter_sublist _).map Prod.fst
  have hsorted : List.Sorted (· < ·) (g.succ_map.map Prod.fst) := by
    show List.Sorted (· < ·) (mapKeys g.succ_map)
    rw [h.succ_keys]
    exact h.nodes_sorted
  exact hsorted.sublist hsub

theorem transpose_eq_swap {g : Graph} (h : WF g) :
    transpose g = ⟨g.node_set, g.pred_map, g.succ_map⟩ := by
  rw [transpose_eq_foldl]
  have hsknd : (mapKeys g.succ_map).Nodup := h.succ_keys.symm ▸ h.nodes_nodup
  refine Graph.ext2 ?_ ?_ ?_
  · rw [tfold_node_set]
    rfl
  · apply assoc_ext
    · rw [tfold_succ_keys]
      show mapKeys (copy_and_clear g).succ_map = _
      show mapKeys (g.node_set.foldl (fun m n => mapSet m n []) g.succ_map) = _
      rw [mapKeys_foldl_clear, h.succ_keys, h.pred_keys]
    · rw [tfold_succ_keys]
      show (mapKeys (g.node_set.foldl (fun m n => mapSet m n []) g.succ_map)).Nodup
      rw [mapKeys_foldl_clear, h.succ_keys]
      exact h.nodes_nodup
    · intro k
      rw [tfold_succ_find, copy_and_clear_find_succ h]
      by_cases hk : k ∈ g.node_set
      · rw [if_pos hk]
        obtain ⟨pk, hpk⟩ := mapFind_isSome_of_mem_keys (h.pred_keys.symm ▸ hk)
        rw [hpk]
        show some ([] ++ _) = _
        rw [List.nil_append]
        congr 1
        rw [show edgesOf g = g.succ_map.flatMap fun p => p.2.map fun v => (p.1, v)
            from rfl,
          flat_filter_snd g.succ_map k (fun p hp => (h.2.2.2.1 p hp).nodup)]
        apply eq_of_sorted_of_mem (sorted_filter_keys h k) (h.find_pred_sorted hpk)
        intro u
        rw [mem_filter_map_fst hsknd]
        constructor
        · intro hadj
          obtain ⟨l, hl, hm⟩ := inAdjB_iff.mp ((h.adj_symm u k).mp hadj)
          rw [hpk] at hl
          injection hl with hl
          rw [hl]
          exact hm
        · intro hu
          exact (h.adj_symm u k).mpr (inAdjB_iff.mpr ⟨pk, hpk, hu⟩)
      · rw [if_neg hk]
        symm
        exact mapFind_eq_none_iff.mpr (fun hm => hk (h.pred_keys ▸ hm))
  · apply assoc_ext
    · rw [tfold_pred_keys]
      show mapKeys (g.node_set.foldl (fun m n => mapSet m n []) g.pred_map) = _
      rw [mapKeys_foldl_clear, h.pred_keys, h.succ_keys]
    · rw [tfold_pred_keys]
      show (mapKeys (g.node_set.foldl (fun m n => mapSet m n []) g.pred_map)).Nodup
      rw [mapKeys_foldl_clear, h.pred_keys]
      exact h.nodes_nodup
    · intro k
      rw [tfold_pred_find, copy_and_clear_find_pred h]
      by_cases hk : k ∈ g.node_set
      · rw [if_pos hk]
        obtain ⟨sk, hsk⟩ := mapFind_isSome_of_mem_keys (h.succ_keys.symm ▸ hk)
        rw [hsk]
        show some ([] ++ _) = _
        rw [List.nil_append]
        rw [show edgesOf g = g.succ_map.flatMap fun p => p.2.map fun v => (p.1, v)
            from rfl,
          flat_filter_fst g.succ_map k hsknd, hsk]
        rfl
      · rw [if_neg hk]
        symm
        exact mapFind_eq_none_iff.mpr (fun hm => hk (h.succ_keys ▸ hm))

theorem wf_swap {g : Graph} (h : WF g) :
    WF ⟨g.node_set, g.pred_map, g.succ_map⟩ := by
  obtain ⟨h1, h2, h3, h4, h5, h6, h7⟩ := h
  exact ⟨h1, h3, h2, h5, h4, h7, h6⟩

theorem wf_transpose {g : Graph} (h : WF g) : WF (transpose g) := by
  rw [transpose_eq_swap h]
  exact wf_swap h

theorem transpose_transpose_eq {g : Graph} (h : WF g) :
    transpose (transpose g) = g := by
  rw [transpose_eq_swap h, transpose_eq_swap (wf_swap h)]

theorem wf_add_edge {g g' : Graph} {a b : Nat} (h : WF g)
    (hok : add_edge g a b = .ok g') : WF g' := by
  by_cases ha : a ∈ g.node_set
  · by_cases hb : b ∈ g.node_set
    · obtain ⟨g1, hok1, hwf1, -, -⟩ := add_edge_ok h ha hb
      rw [hok1] at hok
      injection hok with hok
      exact hok ▸ hwf1
    · rw [add_edge_error_to ha hb] at hok
      cases hok
  · rw [add_edge_error_from ha] at hok
    cases hok

theorem built_wf {g : Graph} (h : Built g) : WF g := by
  induction h with
  | empty => exact wf_empty
  | node hb hok ih => exact wf_add_node ih hok
  | edge hb hok ih => exact wf_add_edge ih hok

/-! ## Union machinery -/

theorem mem_edgesOf {g : Graph} (h : WF g) (x y : Nat) :
    ((x, y) ∈ edgesOf g) ↔ hasEdge g x y = true := by
  unfold edgesOf hasEdge
  rw [List.mem_flatMap]
  constructor
  · rintro ⟨p, hp, hmem⟩
    rw [List.mem_map] at hmem
    obtain ⟨v, hv, heq⟩ := hmem
    have h1 : p.1 = x := congrArg Prod.fst heq
    have h2 : v = y := congrArg Prod.snd heq
    have hf : mapFind g.succ_map p.1 = some p.2 :=
      mapFind_of_mem (h.succ_keys.symm ▸ h.nodes_nodup) hp
    exact inAdjB_iff.mpr ⟨p.2, h1 ▸ hf, h2 ▸ hv⟩
  · intro hadj
    obtain ⟨l, hl, hm⟩ := inAdjB_iff.mp hadj
    exact ⟨(x, l), mem_of_mapFind hl, List.mem_map.mpr ⟨y, hm, rfl⟩⟩

theorem edgesOf_endpoints {g : Graph} (h : WF g) {e : Nat × Nat}
    (he : e ∈ edgesOf g) : e.1 ∈ g.node_set ∧ e.2 ∈ g.node_set := by
  obtain ⟨x, y⟩ := e
  rw [mem_edgesOf h] at he
  exact ⟨h.hasEdge_mem_left he, h.hasEdge_mem_right he⟩

theorem foldlM_add_edge (es : List (Nat × Nat)) :
    ∀ (r : Graph), WF r → (∀ e ∈ es, e.1 ∈ r.node_set ∧ e.2 ∈ r.node_set) →
    ∃ r', es.foldlM (fun g e => add_edge g e.1 e.2) r = .ok r' ∧ WF r' ∧
      r'.node_set = r.node_set ∧
      ∀ x y, (hasEdge r' x y = true ↔ hasEdge r x y = true ∨ (x, y) ∈ es) := by
  induction es with
  | nil =>
    intro r hwf _
    exact ⟨r, rfl, hwf, rfl, by simp⟩
  | cons e rest ih =>
    intro r hwf hep
    obtain ⟨he1, he2⟩ := hep e (by simp)
    obtain ⟨r1, hok1, hwf1, hns1, hrel1⟩ := add_edge_ok hwf he1 he2
    obtain ⟨r', hok', hwf', hns', hrel'⟩ := ih r1 hwf1 (by
      intro e' he'
      obtain ⟨h1, h2⟩ := hep e' (by simp [he'])
      exact ⟨hns1.symm ▸ h1, hns1.symm ▸ h2⟩)
    refine ⟨r', ?_, hwf', by rw [hns', hns1], ?_⟩
    · rw [List.foldlM_cons, hok1]
      show (Except.ok r1 >>= fun g => rest.foldlM (fun g e => add_edge g e.1 e.2) g)
        = .ok r'
      exact hok'
    · intro x y
      rw [hrel' x y, hrel1 x y]
      simp only [List.mem_cons, Prod.ext_iff]
      tauto

theorem union_ok {g1 g2 : Graph} (h1 : WF g1) (h2 : WF g2)
    (hns : g1.node_set = g2.node_set) :
    ∃ u, union g1 g2 = .ok u ∧ WF u ∧ u.node_set = g1.node_set ∧
      ∀ x y, (hasEdge u x y = true ↔
        hasEdge g1 x y = true ∨ hasEdge g2 x y = true) := by
  have hend : ∀ e ∈ edgesOf g1 ++ edgesOf g2,
      e.1 ∈ (copy_and_clear g1).node_set ∧ e.2 ∈ (copy_and_clear g1).node_set := by
    intro e he
    rcases List.mem_append.mp he with hm | hm
    · exact edgesOf_endpoints h1 hm
    · obtain ⟨ha, hb⟩ := edgesOf_endpoints h2 hm
      exact ⟨hns ▸ ha, hns ▸ hb⟩
  obtain ⟨u, hok, hwfu, hnsu, hrel⟩ :=
    foldlM_add_edge (edgesOf g1 ++ edgesOf g2) (copy_and_clear g1)
      (wf_copy_and_clear h1) hend
  refine ⟨u, ?_, hwfu, hnsu, ?_⟩
  · unfold union
    rw [if_neg (by simp [hns])]
    exact hok
  · intro x y
    rw [hrel x y, hasEdge_copy_and_clear h1, List.mem_append,
      mem_edgesOf h1, mem_edgesOf h2]
    simp

theorem wf_union {g1 g2 g' : Graph} (h1 : WF g1) (h2 : WF g2)
    (hok : union g1 g2 = .ok g') : WF g' := by
  by_cases hns : g1.node_set = g2.node_set
  · obtain ⟨u, hu, hwfu, -, -⟩ := union_ok h1 h2 hns
    rw [hu] at hok
    injection hok with hok
    exact hok ▸ hwfu
  · unfold union at hok
    rw [if_pos (by simpa using hns)] at hok
    cases hok

theorem graph_eq_of_rel {g1 g2 : Graph} (h1 : WF g1) (h2 : WF g2)
    (hns : g1.node_set = g2.node_set)
    (hrel : ∀ x y, hasEdge g1 x y = true ↔ hasEdge g2 x y = true) : g1 = g2 := by
  have hfind : ∀ k, mapFind g1.succ_map k = mapFind g2.succ_map k := by
    intro k
    cases hf1 : mapFind g1.succ_map k with
    | none =>
      have hk : k ∉ g1.node_set := by
        intro hm
        obtain ⟨l, hl⟩ := mapFind_isSome_of_mem_keys (h1.succ_keys.symm ▸ hm)
        rw [hl] at hf1
        cases hf1
      symm
      exact mapFind_eq_none_iff.mpr
        (fun hm => hk (hns.symm ▸ (h2.succ_keys ▸ hm)))
    | some l1 =>
      have hk : k ∈ g1.node_set := h1.succ_keys ▸ mem_keys_of_mapFind hf1
      obtain ⟨l2, hf2⟩ := mapFind_isSome_of_mem_keys (h2.succ_keys.symm ▸ hns ▸ hk)
      rw [hf2]
      congr 1
      apply eq_of_sorted_of_mem (h1.find_succ_sorted hf1) (h2.find_succ_sorted hf2)
      intro z
      have e1 : (z ∈ l1) ↔ hasEdge g1 k z = true := by
        unfold hasEdge
        rw [inAdjB_of_find hf1]
        exact contains_iff.symm
      have e2 : (z ∈ l2) ↔ hasEdge g2 k z = true := by
        unfold hasEdge
        rw [inAdjB_of_find hf2]
        exact contains_iff.symm
      rw [e1, e2]
      exact hrel k z
  have hfindp : ∀ k, mapFind g1.pred_map k = mapFind g2.pred_map k := by
    intro k
    cases hf1 : mapFind g1.pred_map k with
    | none =>
      have hk : k ∉ g1.node_set := by
        intro hm
        obtain ⟨l, hl⟩ := mapFind_isSome_of_mem_keys (h1.pred_keys.symm ▸ hm)
        rw [hl] at hf1
        cases hf1
      symm
      exact mapFind_eq_none_iff.mpr
        (fun hm => hk (hns.symm ▸ (h2.pred_keys ▸ hm)))
    | some l1 =>
      have hk : k ∈ g1.node_set := h1.pred_keys ▸ mem_keys_of_mapFind hf1
      obtain ⟨l2, hf2⟩ := mapFind_isSome_of_mem_keys (h2.pred_keys.symm ▸ hns ▸ hk)
      rw [hf2]
      congr 1
      apply eq_of_sorted_of_mem (h1.find_pred_sorted hf1) (h2.find_pred_sorted hf2)
      intro z
      have e1 : (z ∈ l1) ↔ hasEdge g1 z k = true := by
        constructor
        · intro hz
          exact (h1.adj_symm z k).mpr (inAdjB_iff.mpr ⟨l1, hf1, hz⟩)
        · intro hz
          obtain ⟨l, hl, hm⟩ := inAdjB_iff.mp ((h1.adj_symm z k).mp hz)
          rw [hf1] at hl
          injection hl with hl
          rw [hl]
          exact hm
      have e2 : (z ∈ l2) ↔ hasEdge g2 z k = true := by
        constructor
        · intro hz
          exact (h2.adj_symm z k).mpr (inAdjB_iff.mpr ⟨l2, hf2, hz⟩)
        · intro hz
          obtain ⟨l, hl, hm⟩ := inAdjB_iff.mp ((h2.adj_symm z k).mp hz)
          rw [hf2] at hl
          injection hl with hl
          rw [hl]
          exact hm
      rw [e1, e2]
      exact hrel z k
  refine Graph.ext2 hns ?_ ?_
  · apply assoc_ext ?_ ?_ hfind
    · rw [h1.succ_keys, h2.succ_keys, hns]
    · rw [h1.succ_keys]
      exact h1.nodes_nodup
  · apply assoc_ext ?_ ?_ hfindp
    · rw [h1.pred_keys, h2.pred_keys, hns]
    · rw [h1.pred_keys]
      exact h1.nodes_nodup

/-- C3: for every graph built through `add_node`/`add_edge`, transposing
twice gives back a graph equal to the original under `operator==`. -/
theorem transpose_transpose (g : Graph) (h : Built g) :
    beqGraph (transpose (transpose g)) g = true := by
  rw [transpose_transpose_eq (built_wf h)]
  simp [beqGraph]

/-- Witness for C3: the Scenario A graph, built step by step. -/
theorem transpose_transpose_witness :
    beqGraph (transpose (transpose gA)) gA = true :=
  transpose_transpose gA
    (Built.edge
      (Built.edge
        (Built.edge
          (Built.node
            (Built.node
              (Built.node Built.empty (n := 1) rfl)
              (n := 2) rfl)
            (n := 3) rfl)
          (a := 1) (b := 2) rfl)
        (a := 2) (b := 3) rfl)
      (a := 3) (b := 1) rfl)

/-- C4: the empty graph is well-formed and every public operation —
`add_node`, `add_edge`, `transpose`, `copy_and_clear` and union — preserves
the well-formedness invariant (node set is the key domain of both adjacency
maps, adjacency symmetry, and strictly sorted duplicate-free adjacency
lists); in particular `transpose`, which writes the maps directly, still
produces sorted duplicate-free lists. -/
theorem invariants_preserved :
    WF emptyGraph ∧
    (∀ g n g', WF g → add_node g n = .ok g' → WF g') ∧
    (∀ g a b g', WF g → add_edge g a b = .ok g' → WF g') ∧
    (∀ g, WF g → WF (transpose g)) ∧
    (∀ g, WF g → WF (copy_and_clear g)) ∧
    (∀ g1 g2 g', WF g1 → WF g2 → union g1 g2 = .ok g' → WF g') :=
  ⟨wf_empty,
    fun _ _ _ h hok => wf_add_node h hok,
    fun _ _ _ _ h hok => wf_add_edge h hok,
    fun _ h => wf_transpose h,
    fun _ h => wf_copy_and_clear h,
    fun _ _ _ h1 h2 hok => wf_union h1 h2 hok⟩

/-- Witness for C4 at concrete graphs: well-formedness of the Scenario A
graph's transpose and cleared copy, obtained by instantiating the
invariant-preservation theorem. -/
theorem invariants_preserved_witness :
    WF (transpose gA) ∧ WF (copy_and_clear gA) ∧ WF emptyGraph :=
  ⟨invariants_preserved.2.2.2.1 gA (by decide),
    invariants_preserved.2.2.2.2.1 gA (by decide),
    invariants_preserved.1⟩

/-- C5: for well-formed graphs with identical node sets, `A + B` and
`B + A` both succeed and the results are equal under `operator==`. -/
theorem union_commutative {A B : Graph} (hA : WF A) (hB : WF B)
    (hns : A.node_set = B.node_set) :
    ∃ C D, union A B = .ok C ∧ union B A = .ok D ∧ beqGraph C D = true := by
  obtain ⟨C, hC, hwC, hnsC, hrelC⟩ := union_ok hA hB hns
  obtain ⟨D, hD, hwD, hnsD, hrelD⟩ := union_ok hB hA hns.symm
  refine ⟨C, D, hC, hD, ?_⟩
  have hCD : C = D := by
    apply graph_eq_of_rel hwC hwD (by rw [hnsC, hnsD, hns])
    intro x y
    rw [hrelC x y, hrelD x y]
    tauto
  rw [hCD]
  simp [beqGraph]

/-- Witness for C5: the Scenario A graph and the bug-exposing graph share
the node set {1,2,3}. -/
theorem union_commutative_witness :
    ∃ C D, union gA gBug = .ok C ∧ union gBug gA = .ok D ∧
      beqGraph C D = true :=
  union_commutative (by decide) (by decide) (by decide)

/-! ## DFS visit: loop equations and fuel elision -/

theorem visitLoop_nil (g : Graph) (fuel node : Nat) (m : DfsPropMap) (t : Int) :
    visitLoop g fuel node [] m t = (t, [], m) := rfl

theorem visitLoop_cons_pos {g : Graph} {fuel node nb : Nat} {rest : List Nat}
    {m : DfsPropMap} {t : Int} (hw : (m nb).color = Color.WHITE) :
    visitLoop g fuel node (nb :: rest) m t =
      ((visitLoop g fuel node rest
          (dfs_visit g fuel nb (parentAt m nb node) t).2.2
          (dfs_visit g fuel nb (parentAt m nb node) t).1).1,
       (dfs_visit g fuel nb (parentAt m nb node) t).2.1 ++
         (visitLoop g fuel node rest
            (dfs_visit g fuel nb (parentAt m nb node) t).2.2
            (dfs_visit g fuel nb (parentAt m nb node) t).1).2.1,
       (visitLoop g fuel node rest
          (dfs_visit g fuel nb (parentAt m nb node) t).2.2
          (dfs_visit g fuel nb (parentAt m nb node) t).1).2.2) := by
  simp [visitLoop, hw, parentAt]

theorem visitLoop_cons_neg {g : Graph} {fuel node nb : Nat} {rest : List Nat}
    {m : DfsPropMap} {t : Int} (hw : ¬ (m nb).color = Color.WHITE) :
    visitLoop g fuel node (nb :: rest) m t = visitLoop g fuel node rest m t := by
  simp [visitLoop, hw]

theorem childRuns_nil (g : Graph) (fuel node : Nat) (m : DfsPropMap) (t : Int) :
    childRuns g fuel node [] m t = (t, [], m) := rfl

theorem childRuns_cons_pos {g : Graph} {fuel node nb : Nat} {rest : List Nat}
    {m : DfsPropMap} {t : Int} (hw : (m nb).color = Color.WHITE) :
    childRuns g fuel node (nb :: rest) m t =
      ((childRuns g fuel node rest
          (dfs_visit g fuel nb (parentAt m nb node) t).2.2
          (dfs_visit g fuel nb (parentAt m nb node) t).1).1,
       (dfs_visit g fuel nb (parentAt m nb node) t).2.1 ::
         (childRuns g fuel node rest
            (dfs_visit g fuel nb (parentAt m nb node) t).2.2
            (dfs_visit g fuel nb (parentAt m nb node) t).1).2.1,
       (childRuns g fuel node rest
          (dfs_visit g fuel nb (parentAt m nb node) t).2.2
          (dfs_visit g fuel nb (parentAt m nb node) t).1).2.2) := by
  simp [childRuns, hw, parentAt]

theorem childRuns_cons_neg {g : Graph} {fuel node nb : Nat} {rest : List Nat}
    {m : DfsPropMap} {t : Int} (hw : ¬ (m nb).color = Color.WHITE) :
    childRuns g fuel node (nb :: rest) m t = childRuns g fuel node rest m t := by
  simp [childRuns, hw]

theorem visitLoop_acc (g : Graph) (fuel node : Nat) (l : List Nat) :
    ∀ (m : DfsPropMap) (t : Int) (acc : List Nat),
    l.foldl
      (fun st nb =>
        if (st.2.2 nb).color = Color.WHITE then
          let m2 := setProp st.2.2 nb { st.2.2 nb with parent := node }
          let r2 := dfs_visit g fuel nb m2 st.1
          (r2.1, st.2.1 ++ r2.2.1, r2.2.2)
        else st)
      (t, acc, m)
    = ((visitLoop g fuel node l m t).1,
       acc ++ (visitLoop g fuel node l m t).2.1,
       (visitLoop g fuel node l m t).2.2) := by
  induction l with
  | nil =>
    intro m t acc
    simp [visitLoop_nil]
  | cons nb rest ih =>
    intro m t acc
    rw [List.foldl_cons]
    by_cases hw : (m nb).color = Color.WHITE
    · rw [visitLoop_cons_pos hw]
      have hstep :
          (if (((t, acc, m) : Int × List Nat × DfsPropMap).2.2 nb).color = Color.WHITE then
            let m2 := setProp ((t, acc, m) : Int × List Nat × DfsPropMap).2.2 nb
              { ((t, acc, m) : Int × List Nat × DfsPropMap).2.2 nb with parent := node }
            let r2 := dfs_visit g fuel nb m2 ((t, acc, m) : Int × List Nat × DfsPropMap).1
            (r2.1, ((t, acc, m) : Int × List Nat × DfsPropMap).2.1 ++ r2.2.1, r2.2.2)
          else ((t, acc, m) : Int × List Nat × DfsPropMap))
          = ((dfs_visit g fuel nb (parentAt m nb node) t).1,
             acc ++ (dfs_visit g fuel nb (parentAt m nb node) t).2.1,
             (dfs_visit g fuel nb (parentAt m nb node) t).2.2) := by
        simp [hw, parentAt]
      rw [hstep, ih]
      simp [List.append_assoc]
    · rw [visitLoop_cons_neg hw]
      have hstep :
          (if (((t, acc, m) : Int × List Nat × DfsPropMap).2.2 nb).color = Color.WHITE then
            let m2 := setProp ((t, acc, m) : Int × List Nat × DfsPropMap).2.2 nb
              { ((t, acc, m) : Int × List Nat × DfsPropMap).2.2 nb with parent := node }
            let r2 := dfs_visit g fuel nb m2 ((t, acc, m) : Int × List Nat × DfsPropMap).1
            (r2.1, ((t, acc, m) : Int × List Nat × DfsPropMap).2.1 ++ r2.2.1, r2.2.2)
          else ((t, acc, m) : Int × List Nat × DfsPropMap))
          = (t, acc, m) := by
        simp [hw]
      rw [hstep, ih]

theorem dfs_visit_succ (g : Graph) (fuel node : Nat) (m : DfsPropMap) (t : Int) :
    dfs_visit g (fuel + 1) node m t =
      visitFinish node
        (visitLoop g fuel node (succList g node) (grayAt m node (t + 1)) (t + 1)) := by
  show (let time := t + 1
        let m1 := setProp m node { m node with discovery_time := time, color := Color.GRAY }
        let r := (succList g node).foldl
          (fun st nb =>
            if (st.2.2 nb).color = Color.WHITE then
              let m2 := setProp st.2.2 nb { st.2.2 nb with parent := node }
              let r2 := dfs_visit g fuel nb m2 st.1
              (r2.1, st.2.1 ++ r2.2.1, r2.2.2)
            else st)
          (time, ([] : List Nat), m1)
        let m3 := setProp r.2.2 node { r.2.2 node with color := Color.BLACK }
        (r.1 + 1, node :: r.2.1,
          setProp m3 node { m3 node with finish_time := r.1 + 1 })) = _
  simp only []
  rw [visitLoop_acc]
  simp [visitFinish, grayAt]

theorem parentAt_color (m : DfsPropMap) (nb node k : Nat) :
    ((parentAt m nb node) k).color = (m k).color := by
  unfold parentAt setProp
  by_cases h : k = nb <;> simp [h]

theorem grayAt_color (m : DfsPropMap) (node : Nat) (t : Int) (k : Nat) :
    ((grayAt m node t) k).color = if k = node then Color.GRAY else (m k).color := by
  unfold grayAt setProp
  by_cases h : k = node <;> simp [h]

theorem visitFinish_color (node : Nat) (r : Int × List Nat × DfsPropMap) (k : Nat) :
    ((visitFinish node r).2.2 k).color =
      if k = node then Color.BLACK else ((r.2.2) k).color := by
  unfold visitFinish setProp
  by_cases h : k = node <;> simp [h]

theorem visit_white_mono (g : Graph) :
    ∀ fuel n m t k, ((dfs_visit g fuel n m t).2.2 k).color = Color.WHITE →
      (m k).color = Color.WHITE := by
  intro fuel
  induction fuel with
  | zero =>
    intro n m t k h
    exact h
  | succ f ih =>
    have hloop : ∀ node (l : List Nat) m t k,
        ((visitLoop g f node l m t).2.2 k).color = Color.WHITE →
        (m k).color = Color.WHITE := by
      intro node l
      induction l with
      | nil =>
        intro m t k h
        exact h
      | cons nb rest ihl =>
        intro m t k h
        by_cases hw : (m nb).color = Color.WHITE
        · rw [visitLoop_cons_pos hw] at h
          have h2 := ihl _ _ k h
          have h3 := ih nb _ _ k h2
          rwa [parentAt_color] at h3
        · rw [visitLoop_cons_neg hw] at h
          exact ihl _ _ k h
    intro n m t k h
    rw [dfs_visit_succ, visitFinish_color] at h
    by_cases hk : k = n
    · rw [if_pos hk] at h
      simp at h
    · rw [if_neg hk] at h
      have h2 := hloop n _ _ _ k h
      rw [grayAt_color, if_neg hk] at h2
      exact h2

theorem count_mono {l : List Nat} {p q : Nat → Bool}
    (h : ∀ x, p x = true → q x = true) :
    (l.filter p).length ≤ (l.filter q).length := by
  induction l with
  | nil => simp
  | cons x xs ih =>
    by_cases hp : p x = true
    · have hq := h x hp
      simp only [List.filter_cons, hp, hq, if_true, List.length_cons]
      omega
    · have hp' : p x = false := by simpa using hp
      by_cases hq : q x = true
      · simp [List.filter_cons, hp', hq]
        omega
      · have hq' : q x = false := by simpa using hq
        simp [List.filter_cons, hp', hq']
        exact ih

theorem count_lt {l : List Nat} {p q : Nat → Bool} {x : Nat}
    (h : ∀ z, p z = true → q z = true) (hx : x ∈ l)
    (hp : p x = false) (hq : q x = true) :
    (l.filter p).length < (l.filter q).length := by
  induction l with
  | nil => cases hx
  | cons y ys ih =>
    rcases List.mem_cons.mp hx with hxy | hxy
    · subst hxy
      have hmono := count_mono h (l := ys)
      simp [List.filter_cons, hp, hq]
      omega
    · by_cases hpy : p y = true
      · have hqy := h y hpy
        simp only [List.filter_cons, hpy, hqy, if_true, List.length_cons]
        have := ih hxy
        omega
      · have hpy' : p y = false := by simpa using hpy
        by_cases hqy : q y = true
        · simp only [List.filter_cons, hpy', hqy, if_true, Bool.false_eq_true,
            if_false, List.length_cons]
          have := ih hxy
          omega
        · have hqy' : q y = false := by simpa using hqy
          simp only [List.filter_cons, hpy', hqy', Bool.false_eq_true, if_false]
          exact ih hxy

theorem whiteCount_mono {g : Graph} {m m' : DfsPropMap}
    (h : ∀ k, (m' k).color = Color.WHITE → (m k).color = Color.WHITE) :
    whiteCount g m' ≤ whiteCount g m :=
  count_mono fun x hx => decide_eq_true (h x (of_decide_eq_true hx))

theorem whiteCount_pos {g : Graph} {m : DfsPropMap} {n : Nat}
    (hn : n ∈ g.node_set) (hw : (m n).color = Color.WHITE) :
    1 ≤ whiteCount g m := by
  unfold whiteCount
  have hmem : n ∈ g.node_set.filter (fun k => decide ((m k).color = Color.WHITE)) :=
    List.mem_filter.mpr ⟨hn, decide_eq_true hw⟩
  have := List.length_pos_of_mem hmem
  omega

theorem whiteCount_parentAt (g : Graph) (m : DfsPropMap) (nb node : Nat) :
    whiteCount g (parentAt m nb node) = whiteCount g m := by
  unfold whiteCount
  congr 1
  apply List.filter_congr
  intro x _
  rw [parentAt_color]

theorem whiteCount_grayAt_lt {g : Graph} {m : DfsPropMap} {n : Nat}
    (hn : n ∈ g.node_set) (hw : (m n).color = Color.WHITE) (t : Int) :
    whiteCount g (grayAt m n t) < whiteCount g m := by
  unfold whiteCount
  apply count_lt (x := n) ?_ hn ?_ ?_
  · intro z hz
    rw [decide_eq_true_eq, grayAt_color] at hz
    by_cases h : z = n
    · rw [if_pos h] at hz
      simp at hz
    · rw [if_neg h] at hz
      exact decide_eq_true hz
  · simp [grayAt_color]
  · exact decide_eq_true hw

theorem succList_subset {g : Graph} (hwf : WF g) {n : Nat} :
    ∀ x ∈ succList g n, x ∈ g.node_set := by
  intro x hx
  unfold succList at hx
  cases hf : mapFind g.succ_map n with
  | none =>
    rw [hf] at hx
    simp at hx
  | some sa =>
    rw [hf] at hx
    simp at hx
    exact hwf.hasEdge_mem_right (a := n) (inAdjB_iff.mpr ⟨sa, hf, hx⟩)

theorem loop_fuel_agree {g : Graph} (c f1 f2 : Nat)
    (IH : ∀ n m t, n ∈ g.node_set → (m n).color = Color.WHITE →
      whiteCount g m ≤ c → dfs_visit g f1 n m t = dfs_visit g f2 n m t)
    (node : Nat) :
    ∀ (l : List Nat), (∀ x ∈ l, x ∈ g.node_set) →
      ∀ m t, whiteCount g m ≤ c →
      visitLoop g f1 node l m t = visitLoop g f2 node l m t := by
  intro l
  induction l with
  | nil =>
    intro _ m t _
    rfl
  | cons nb rest ihl =>
    intro hsub m t hcm
    by_cases hw : (m nb).color = Color.WHITE
    · rw [visitLoop_cons_pos hw, visitLoop_cons_pos hw]
      have hnb : nb ∈ g.node_set := hsub nb (by simp)
      have hw2 : ((parentAt m nb node) nb).color = Color.WHITE := by
        rw [parentAt_color]
        exact hw
      have hc2 : whiteCount g (parentAt m nb node) ≤ c := by
        rw [whiteCount_parentAt]
        exact hcm
      rw [IH nb (parentAt m nb node) t hnb hw2 hc2]
      have hc3 : whiteCount g ((dfs_visit g f2 nb (parentAt m nb node) t).2.2) ≤ c :=
        le_trans (whiteCount_mono fun k hk => visit_white_mono g f2 nb _ t k hk) hc2
      rw [ihl (fun x hx => hsub x (by simp [hx])) _ _ hc3]
    · rw [visitLoop_cons_neg hw, visitLoop_cons_neg hw]
      exact ihl (fun x hx => hsub x (by simp [hx])) m t hcm

theorem visit_fuel_agree {g : Graph} (hwf : WF g) :
    ∀ c f1 f2 n m t, n ∈ g.node_set → (m n).color = Color.WHITE →
      whiteCount g m ≤ c → c ≤ f1 → c ≤ f2 →
      dfs_visit g f1 n m t = dfs_visit g f2 n m t := by
  intro c
  induction c with
  | zero =>
    intro f1 f2 n m t hn hw hc _ _
    have := whiteCount_pos hn hw
    omega
  | succ c ih =>
    intro f1 f2 n m t hn hw hc hf1 hf2
    obtain ⟨f1', rfl⟩ : ∃ f1', f1 = f1' + 1 := ⟨f1 - 1, by omega⟩
    obtain ⟨f2', rfl⟩ : ∃ f2', f2 = f2' + 1 := ⟨f2 - 1, by omega⟩
    rw [dfs_visit_succ, dfs_visit_succ]
    have hgc : whiteCount g (grayAt m n (t + 1)) ≤ c := by
      have := whiteCount_grayAt_lt hn hw (t + 1)
      omega
    have hl := loop_fuel_agree c f1' f2'
      (fun n' m' t' hn' hw' hc' => ih f1' f2' n' m' t' hn' hw' hc' (by omega) (by omega))
      n (succList g n) (succList_subset hwf) (grayAt m n (t + 1)) (t + 1) hgc
    rw [hl]

theorem loop_eq_childRuns {g : Graph} (hwf : WF g) (c f1 f2 : Nat) (node : Nat)
    (hcf1 : c ≤ f1) (hcf2 : c ≤ f2) :
    ∀ (l : List Nat), (∀ x ∈ l, x ∈ g.node_set) →
      ∀ m t, whiteCount g m ≤ c →
      visitLoop g f1 node l m t =
        ((childRuns g f2 node l m t).1,
         (childRuns g f2 node l m t).2.1.flatten,
         (childRuns g f2 node l m t).2.2) := by
  intro l
  induction l with
  | nil =>
    intro _ m t _
    simp [visitLoop_nil, childRuns_nil]
  | cons nb rest ihl =>
    intro hsub m t hcm
    by_cases hw : (m nb).color = Color.WHITE
    · rw [visitLoop_cons_pos hw, childRuns_cons_pos hw]
      have hnb : nb ∈ g.node_set := hsub nb (by simp)
      have hw2 : ((parentAt m nb node) nb).color = Color.WHITE := by
        rw [parentAt_color]
        exact hw
      have hc2 : whiteCount g (parentAt m nb node) ≤ c := by
        rw [whiteCount_parentAt]
        exact hcm
      rw [visit_fuel_agree hwf c f1 f2 nb (parentAt m nb node) t hnb hw2 hc2 hcf1 hcf2]
      have hc3 : whiteCount g ((dfs_visit g f2 nb (parentAt m nb node) t).2.2) ≤ c :=
        le_trans (whiteCount_mono fun k hk => visit_white_mono g f2 nb _ t k hk) hc2
      rw [ihl (fun x hx => hsub x (by simp [hx])) _ _ hc3]
      simp
    · rw [visitLoop_cons_neg hw, childRuns_cons_neg hw]
      exact ihl (fun x hx => hsub x (by simp [hx])) m t hcm

/-- C8: on a well-formed graph, for a node of the graph, a property map in
which that node is white, and any clock value, the canonical `dfs_visit`
returns the clock advanced past the successor loop and the visited sequence
in pre-order: the node itself first, followed by the concatenation (in
successor order) of the sequences returned by each recursive call on a
then-white successor (`childRuns`, which threads clock and map exactly as
the loop does, at the same canonical fuel). -/
theorem dfs_visit_preorder {g : Graph} (h : WF g) {n : Nat} (hn : n ∈ g.node_set)
    (m : DfsPropMap) (hw : (m n).color = Color.WHITE) (t : Int) :
    (dfs_visit g (dfsFuel g) n m t).1
      = (childRuns g (dfsFuel g) n (succList g n) (grayAt m n (t + 1)) (t + 1)).1 + 1 ∧
    (dfs_visit g (dfsFuel g) n m t).2.1
      = n :: (childRuns g (dfsFuel g) n (succList g n)
          (grayAt m n (t + 1)) (t + 1)).2.1.flatten := by
  have hF1 : 1 ≤ dfsFuel g := List.length_pos_of_mem hn
  obtain ⟨F', hF⟩ : ∃ F', dfsFuel g = F' + 1 := ⟨dfsFuel g - 1, by omega⟩
  have hwc : whiteCount g m ≤ dfsFuel g := List.length_filter_le _ _
  have hgc : whiteCount g (grayAt m n (t + 1)) ≤ F' := by
    have := whiteCount_grayAt_lt hn hw (t + 1)
    omega
  have hl := loop_eq_childRuns h (whiteCount g (grayAt m n (t + 1))) F' (dfsFuel g) n
    hgc (by omega) (succList g n) (succList_subset h) (grayAt m n (t + 1)) (t + 1)
    le_rfl
  constructor
  · conv_lhs => rw [hF]
    rw [dfs_visit_succ, hl]
    simp [visitFinish]
  · conv_lhs => rw [hF]
    rw [dfs_visit_succ, hl]
    simp [visitFinish]

/-- Witness for C8: the root 1 of the Scenario A graph on the freshly
initialized property map at clock 0. -/
theorem dfs_visit_preorder_witness :
    (dfs_visit gA (dfsFuel gA) 1 (init_dfs_map gA) 0).1
      = (childRuns gA (dfsFuel gA) 1 (succList gA 1)
          (grayAt (init_dfs_map gA) 1 (0 + 1)) (0 + 1)).1 + 1 ∧
    (dfs_visit gA (dfsFuel gA) 1 (init_dfs_map gA) 0).2.1
      = 1 :: (childRuns gA (dfsFuel gA) 1 (succList gA 1)
          (grayAt (init_dfs_map gA) 1 (0 + 1)) (0 + 1)).2.1.flatten :=
  dfs_visit_preorder (by decide) (by decide) (init_dfs_map gA) (by decide) 0

end Domino
